import Mathlib

/-!
Verification of the nudelink URL-cleaning core.

This file gives a shallow embedding of the two URL cleaners of the
repository:

* `stripTracking` (heuristic cleaner, `striptracking.js`), and
* `applyClearUrls` (rule-engine cleaner, `clearurls-apply.js`),

together with theorems settling the frozen claims about them.

Host primitives are modelled explicitly:

* the WHATWG `URL` / `URLSearchParams` classes are modelled by `URLValue`,
  `parseChars`, `toStrChars`, `parseForm` and `serializeFormChars`.  The model
  covers absolute hierarchical URLs `scheme://host[:port]/path?query#fragment`
  with lower-casing of scheme and host, default-port elision, and
  `application/x-www-form-urlencoded` query handling.  Out of scope (the
  parser rejects them): userinfo (`@`), IPv6 host brackets, interior
  whitespace/control characters (the real parser percent-encodes them),
  scheme-relative forms without `//`, and dot-segment path normalization.
* JavaScript `RegExp` objects are modelled by `JSRegex`, a record of the
  observable behaviours the interpreter uses (`test`, capture group 1 of
  `exec`, and global replace-with-empty); `new RegExp(src, flags)` is
  modelled by a compilation oracle `String → Option JSRegex` passed to
  `applyClearUrls` (`none` models a `SyntaxError` caught by `safeRegExp`).
* `decodeURIComponent` is modelled by `pctDecodeChars` (strict, failing on a
  malformed `%` escape, not decoding `+`), while the lenient form decoding
  of `URLSearchParams` is `formDecodeChars`.

Static data of `trackingConstants.js` is not part of the provided sources
and is modelled from the spec (see `BAD_PARAMS_LIST`).
-/

/-! ### Character and string utilities -/

/-- Whitespace-or-control test used for JS string trimming: code points up to
U+0020 inclusive. -/
def wsLike (c : Char) : Bool := c.toNat ≤ 32

/-- Model of JavaScript `String.prototype.trim` on a character list. -/
def jsTrimChars (l : List Char) : List Char :=
  ((l.dropWhile wsLike).reverse.dropWhile wsLike).reverse

/-- Model of JavaScript `String.prototype.trim`. -/
def jsTrim (s : String) : String := ⟨jsTrimChars s.data⟩

/-- Lower-case every character (model of `toLowerCase` for ASCII data). -/
def lowerChars (l : List Char) : List Char := l.map Char.toLower

/-- Lower-case a string (model of `String.prototype.toLowerCase`). -/
def lowerStr (s : String) : String := ⟨lowerChars s.data⟩

/-- Model of `String.prototype.startsWith`. -/
def jsStartsWith (s pre : String) : Bool := List.isPrefixOf pre.data s.data

/-- Model of `String.prototype.endsWith`. -/
def jsEndsWith (s suf : String) : Bool := List.isSuffixOf suf.data s.data

/-- Model of single-character `String.prototype.includes`. -/
def containsChar (s : String) (c : Char) : Bool := s.data.contains c

/-- Substring search (model of multi-character `includes`). -/
def containsSeq (needle l : List Char) : Bool :=
  l.tails.any (fun t => List.isPrefixOf needle t)

/-- Split a character list at the first occurrence of `c`: returns the part
before it and, when `c` occurs, the part after it. -/
def splitFirst (c : Char) : List Char → List Char × Option (List Char)
  | [] => ([], none)
  | x :: xs =>
    if x = c then ([], some xs)
    else
      let r := splitFirst c xs
      (x :: r.1, r.2)

/-- Split a character list on every occurrence of `c` (keeping empty
segments, as `String.prototype.split` does). -/
def splitSeg (c : Char) : List Char → List (List Char)
  | [] => [[]]
  | x :: xs =>
    if x = c then [] :: splitSeg c xs
    else
      match splitSeg c xs with
      | [] => [[x]]
      | s :: ss => (x :: s) :: ss

/-- Drop a single leading `c` if present. -/
def dropLead (c : Char) (l : List Char) : List Char :=
  match l with
  | [] => []
  | x :: xs => if x = c then xs else x :: xs

/-- Drop a single trailing `c` if present (model of `replace(/c$/, "")`). -/
def stripTrail (c : Char) (l : List Char) : List Char :=
  if l.getLast? = some c then l.dropLast else l

/-- Value of a hexadecimal digit character, `none` otherwise. -/
def hexVal (c : Char) : Option Nat :=
  if 48 ≤ c.toNat ∧ c.toNat ≤ 57 then some (c.toNat - 48)
  else if 65 ≤ c.toNat ∧ c.toNat ≤ 70 then some (c.toNat - 55)
  else if 97 ≤ c.toNat ∧ c.toNat ≤ 102 then some (c.toNat - 87)
  else none

/-- Upper-case hexadecimal digit character of a value below 16. -/
def hexDigitChar (n : Nat) : Char :=
  if n < 10 then Char.ofNat (48 + n) else Char.ofNat (55 + n)

/-- Decimal digit character. -/
def digitChar10 (n : Nat) : Char := Char.ofNat (48 + n)

/-- Decimal digits of a natural number, most significant first. -/
def natToChars (n : Nat) : List Char :=
  if h : n < 10 then [digitChar10 n]
  else natToChars (n / 10) ++ [digitChar10 (n % 10)]
decreasing_by exact Nat.div_lt_self (Nat.lt_of_lt_of_le (by decide) (Nat.le_of_not_lt h)) (by decide)

/-- Value of a decimal digit character. -/
def digitVal (c : Char) : Option Nat :=
  if 48 ≤ c.toNat ∧ c.toNat ≤ 57 then some (c.toNat - 48) else none

/-- Accumulating decimal reader. -/
def charsToNatGo (acc : Nat) : List Char → Option Nat
  | [] => some acc
  | c :: cs =>
    match digitVal c with
    | some d => charsToNatGo (acc * 10 + d) cs
    | none => none

/-- Read a nonempty all-decimal character list as a natural number. -/
def charsToNat (l : List Char) : Option Nat :=
  match l with
  | [] => none
  | _ => charsToNatGo 0 l

/-! ### Form (query-string) encoding and decoding -/

/-- Characters serialized verbatim by `application/x-www-form-urlencoded`
encoding. -/
def formUnreserved (c : Char) : Bool :=
  (decide (97 ≤ c.toNat) && decide (c.toNat ≤ 122)) || (decide (65 ≤ c.toNat) && decide (c.toNat ≤ 90)) ||
  (decide (48 ≤ c.toNat) && decide (c.toNat ≤ 57)) || c = '*' || c = '-' || c = '.' || c = '_'

/-- `application/x-www-form-urlencoded` serialization of one component:
space becomes `+`, other reserved single-byte characters become `%XX`
(characters above U+00FF are kept raw in this model). -/
def formEncodeChars : List Char → List Char
  | [] => []
  | c :: rest =>
    if c = ' ' then '+' :: formEncodeChars rest
    else if formUnreserved c then c :: formEncodeChars rest
    else if c.toNat < 256 then
      '%' :: hexDigitChar (c.toNat / 16) :: hexDigitChar (c.toNat % 16) :: formEncodeChars rest
    else c :: formEncodeChars rest

/-- Lenient `application/x-www-form-urlencoded` decoding: `+` becomes space,
`%XX` becomes the byte character, and a malformed escape is kept raw (this
decoder never fails, as in `URLSearchParams`). -/
def formDecodeChars : List Char → List Char
  | [] => []
  | c :: rest =>
    if c = '+' then ' ' :: formDecodeChars rest
    else if c = '%' then
      match rest with
      | a :: b :: rest2 =>
        match hexVal a, hexVal b with
        | some ha, some hb => Char.ofNat (16 * ha + hb) :: formDecodeChars rest2
        | _, _ => c :: formDecodeChars (a :: b :: rest2)
      | [] => [c]
      | [a] => c :: formDecodeChars [a]
    else c :: formDecodeChars rest

/-- Strict percent-decoding, the model of `decodeURIComponent`: fails on a
`%` not followed by two hex digits, leaves `+` alone. -/
def pctDecodeChars : List Char → Option (List Char)
  | [] => some []
  | c :: rest =>
    if c = '%' then
      match rest with
      | a :: b :: rest2 =>
        match hexVal a, hexVal b with
        | some ha, some hb => (pctDecodeChars rest2).map (Char.ofNat (16 * ha + hb) :: ·)
        | _, _ => none
      | _ => none
    else (pctDecodeChars rest).map (c :: ·)

/-- `decodeURIComponent` as used by the rule engine: on failure the raw
string is kept. -/
def pctDecodeOrRaw (s : String) : String :=
  match pctDecodeChars s.data with
  | some l => ⟨l⟩
  | none => s

/-- Parse one `k=v` (or bare `k`) query segment into a decoded pair. -/
def parseSeg (seg : List Char) : Option (String × String) :=
  if seg.isEmpty then none
  else
    match splitFirst '=' seg with
    | (k, none) => some (⟨formDecodeChars k⟩, "")
    | (k, some v) => some (⟨formDecodeChars k⟩, ⟨formDecodeChars v⟩)

/-- Parse a raw query string into its ordered decoded pairs (the model of
`URLSearchParams` construction; empty segments are skipped). -/
def parseForm (l : List Char) : List (String × String) :=
  (splitSeg '&' l).filterMap parseSeg

/-- Serialize one decoded pair back to `k=v` form. -/
def serializePairChars (kv : String × String) : List Char :=
  formEncodeChars kv.1.data ++ '=' :: formEncodeChars kv.2.data

/-- Serialize decoded pairs to a query string (the model of
`URLSearchParams.prototype.toString`). -/
def serializeFormChars : List (String × String) → List Char
  | [] => []
  | [kv] => serializePairChars kv
  | kv :: rest => serializePairChars kv ++ '&' :: serializeFormChars rest

/-! ### The URL value model -/

/-- A parsed absolute URL (the model of a WHATWG `URL` object): lower-cased
scheme and host, optional non-default port, path starting with `/`, the
ordered decoded query pairs of its `searchParams` view, and the raw
fragment when present. -/
structure URLValue where
  scheme : String
  host : String
  port : Option Nat
  path : String
  query : List (String × String)
  fragment : Option String
deriving DecidableEq, Repr

/-- Default port of the special schemes (WHATWG table). -/
def defaultPort (scheme : List Char) : Option Nat :=
  if scheme = ['h','t','t','p'] then some 80
  else if scheme = ['h','t','t','p','s'] then some 443
  else if scheme = ['w','s'] then some 80
  else if scheme = ['w','s','s'] then some 443
  else if scheme = ['f','t','p'] then some 21
  else none

/-- Characters allowed in a scheme after the first. -/
def schemeChar (c : Char) : Bool :=
  (decide (65 ≤ c.toNat) && decide (c.toNat ≤ 90)) || (decide (97 ≤ c.toNat) && decide (c.toNat ≤ 122)) ||
  (decide (48 ≤ c.toNat) && decide (c.toNat ≤ 57)) || c = '+' || c = '-' || c = '.'

/-- A syntactically valid scheme: nonempty, starts with a letter. -/
def schemeOk (l : List Char) : Bool :=
  match l with
  | [] => false
  | c :: cs =>
    ((decide (65 ≤ c.toNat) && decide (c.toNat ≤ 90)) || (decide (97 ≤ c.toNat) && decide (c.toNat ≤ 122))) && cs.all schemeChar

/-- Characters this model rejects inside a host. -/
def hostBadChar (c : Char) : Bool :=
  c = '@' || c = '[' || c = ']' || c = '\\' || c = '%'

/-- Host/port handling of the parser: reject userinfo `@`, split at the
first `:`, validate the host characters (lower-casing the host), read a
decimal port below 65536, and drop a default or empty port. -/
def parseHostPort (scheme auth : List Char) : Option (List Char × Option Nat) :=
  if auth.any (· = '@') then none
  else
    match splitFirst ':' auth with
    | (hostRaw, portPart) =>
      if hostRaw.isEmpty then none
      else if hostRaw.any hostBadChar then none
      else
        match portPart with
        | none => some (lowerChars hostRaw, none)
        | some pp =>
          if pp.isEmpty then some (lowerChars hostRaw, none)
          else
            match charsToNat pp with
            | none => none
            | some p =>
              if p ≥ 65536 then none
              else if defaultPort scheme = some p then some (lowerChars hostRaw, none)
              else some (lowerChars hostRaw, some p)

/-- Parser for absolute URLs over characters (the model of `new URL(s)`).
The input is trimmed first; remaining whitespace/control characters make
parsing fail (where the real parser would percent-encode or strip them). -/
def parseChars (l0 : List Char) : Option URLValue :=
  let l := jsTrimChars l0
  if l.any wsLike then none
  else
    let fr := splitFirst '#' l
    let qr := splitFirst '?' fr.1
    match splitFirst ':' qr.1 with
    | (_, none) => none
    | (schemeRaw, some rest1) =>
      if schemeOk schemeRaw then
        match rest1 with
        | '/' :: '/' :: rest2 =>
          let ar := splitFirst '/' rest2
          let path : List Char :=
            match ar.2 with
            | none => ['/']
            | some pr => '/' :: pr
          match parseHostPort (lowerChars schemeRaw) ar.1 with
          | none => none
          | some hp =>
            some { scheme := ⟨lowerChars schemeRaw⟩, host := ⟨hp.1⟩, port := hp.2,
                   path := ⟨path⟩, query := parseForm ((qr.2).getD []),
                   fragment := (fr.2).map (fun f => (⟨f⟩ : String)) }
        | _ => none
      else none

/-- Parse a string as an absolute URL. -/
def parseURL (s : String) : Option URLValue := parseChars s.data

/-- Serializer (the model of `URL.prototype.toString` after the cleaners
have synchronized `search` with `searchParams`). -/
def toStrChars (u : URLValue) : List Char :=
  u.scheme.data ++ ':' :: '/' :: '/' :: u.host.data ++
  (match u.port with
   | none => []
   | some p => ':' :: natToChars p) ++
  u.path.data ++
  (match u.query with
   | [] => []
   | q => '?' :: serializeFormChars q) ++
  (match u.fragment with
   | none => []
   | some f => '#' :: f.data)

/-- Final serialization shared by both cleaners: serialize, then drop a
lone trailing `?` and a lone trailing `#` (the
`.replace(/\?$/, "").replace(/#$/, "")` steps / `normalizeUrl`). -/
def outStringChars (u : URLValue) : List Char :=
  stripTrail '#' (stripTrail '?' (toStrChars u))

/-- String form of the final serialization. -/
def outString (u : URLValue) : String := ⟨outStringChars u⟩

/-! ### Heuristic cleaner (`striptracking.js`) -/

/-- Modelled from the spec: `trackingConstants.js` (not among the provided
sources) supplies the static lower-cased tracking-parameter list
`BAD_PARAMS_LIST`; representative members from the spec and README. -/
def BAD_PARAMS_LIST : List String :=
  ["utm_source", "utm_medium", "utm_campaign", "utm_term", "utm_content",
   "gclid", "fbclid", "mc_cid", "mc_eid", "gad_source", "gbraid"]

/-- Modelled from the spec: `trackingConstants.js` referral/affiliate
parameter list `REFERRAL_PARAMS_LIST`, disjoint from the tracking list. -/
def REFERRAL_PARAMS_LIST : List String := ["ref", "affid"]

/-- Options record of `stripTracking`. -/
structure StripOpts where
  keepParams : List String := []
  extraBadParams : List String := []
  removeReferral : Bool := true
deriving Repr

/-- Result record of `stripTracking`. -/
structure StripResult where
  url : String
  changed : Bool
  unwrappedFrom : Option String := none
  error : Option String := none
deriving DecidableEq, Repr

/-- The `keep` set: lower-cased `keepParams`. -/
def keepSetOf (opts : StripOpts) : List String := opts.keepParams.map lowerStr

/-- The `BAD_PARAMS` set: the static list, plus the referral list when
`removeReferral`, plus lower-cased `extraBadParams`. -/
def badSetOf (opts : StripOpts) : List String :=
  BAD_PARAMS_LIST ++ (if opts.removeReferral then REFERRAL_PARAMS_LIST else []) ++
    opts.extraBadParams.map lowerStr

/-- The `shouldRemove` predicate on a query-parameter name. -/
def shouldRemove (opts : StripOpts) (key : String) : Bool :=
  let k := lowerStr key
  if (keepSetOf opts).contains k then false
  else if jsStartsWith k "utm_" then true
  else (badSetOf opts).contains k

/-- JavaScript truthiness of a nullable string. -/
def truthyS : Option String → Bool
  | none => false
  | some s => !s.isEmpty

/-- `searchParams.get(k)`: value of the first pair named `k`. -/
def getParam (u : URLValue) (k : String) : Option String :=
  (u.query.find? (fun kv => kv.1 = k)).map (·.2)

/-- JavaScript `a || b` followed by a truthiness test on the result. -/
def firstTruthy (a b : Option String) : Option String :=
  if truthyS a then a else if truthyS b then b else none

/-- Facebook and Instagram branches of the redirector chain.  The Facebook
branch fires on host `l.facebook.com` OR path `/l.php`, with a truthy `u`
parameter. -/
def unwrapFB (u : URLValue) (urlStr : String) : String × Option String :=
  if (u.host = "l.facebook.com" || u.path = "/l.php") && truthyS (getParam u "u") then
    ((getParam u "u").getD "", some "facebook")
  else if jsEndsWith u.host "instagram.com" && truthyS (getParam u "u") then
    ((getParam u "u").getD "", some "instagram")
  else (urlStr, none)

/-- `unwrapKnownRedirectors`: test the Google, Facebook, Instagram rules in
order against the parsed URL; the first rule that fires yields the target
parameter value and the provider id; a parse failure is caught. -/
def unwrapKnownRedirectors (urlStr : String) : String × Option String :=
  match parseURL urlStr with
  | none => (urlStr, none)
  | some u =>
    if (jsEndsWith u.host "google.com" || jsEndsWith u.host "google.com.au") &&
        u.path = "/url" then
      match firstTruthy (getParam u "url") (getParam u "q") with
      | some c => (c, some "google")
      | none => unwrapFB u urlStr
    else unwrapFB u urlStr

/-- The delete-while-iterating loop shared by both cleaners: iterate over a
snapshot of the query keys, and for each key satisfying `cond` delete every
pair with that exact name (`searchParams.delete`) and set the changed flag. -/
def removeLoop (cond : String → Bool) :
    List String → List (String × String) × Bool → List (String × String) × Bool
  | [], st => st
  | k :: ks, st =>
    removeLoop cond ks
      (if cond k then (st.1.filter (fun kv => !(kv.1 = k)), true) else st)

/-- The hash-cleaning block of `stripTracking`: when the fragment is
nonempty and query-like (contains `=`), parse it as a query string (the
`.replace(/^#\??/, "")` plus the `URLSearchParams` constructor each strip
one leading `?`), delete removable keys, and re-serialize only when
something was deleted (otherwise the raw fragment is kept verbatim). -/
def cleanFragment (opts : StripOpts) : Option String → Option String × Bool
  | none => (none, false)
  | some f =>
    if !f.isEmpty && containsChar f '=' then
      let content := dropLead '?' (dropLead '?' f.data)
      let pairs := parseForm content
      let st := removeLoop (shouldRemove opts) (pairs.map (·.1)) (pairs, false)
      if st.2 then
        let nh := serializeFormChars st.1
        (if nh.isEmpty then none else some ⟨nh⟩, true)
      else (some f, false)
    else (some f, false)

/-- The heuristic cleaner `stripTracking`: trim, unwrap one redirector hop,
parse (parse failure of the working string yields the `Invalid URL` error
with the original input), delete removable query keys, clean a query-like
fragment, and re-serialize with empty `?`/`#` elision. -/
def stripTracking (input : String) (opts : StripOpts) : StripResult :=
  let raw := jsTrim input
  let uw := unwrapKnownRedirectors raw
  match parseURL uw.1 with
  | none => { url := input, changed := false, error := some "Invalid URL" }
  | some u =>
    let qs := removeLoop (shouldRemove opts) (u.query.map (·.1)) (u.query, uw.2.isSome)
    let fs := cleanFragment opts u.fragment
    let u2 : URLValue := { u with query := qs.1, fragment := fs.1 }
    { url := outString u2, changed := qs.2 || fs.2, unwrappedFrom := uw.2 }

/-! ### Rule-engine cleaner (`clearurls-apply.js`) -/

/-- Model of a compiled JavaScript `RegExp`: the observable behaviours the
interpreter uses are `test`, capture group 1 of `exec`, and global
replacement with the empty string. -/
structure JSRegex where
  test : String → Bool
  exec1 : String → Option String
  rall : String → String

/-- A ClearURLs provider entry.  Each regex field holds the source strings
of the JSON (compiled on use through the oracle); a `none` list models a
field that is absent or not an array. -/
structure Provider where
  urlPattern : String
  exceptions : Option (List String) := none
  redirections : Option (List String) := none
  rules : Option (List String) := none
  referralMarketing : Option (List String) := none
  rawRules : Option (List String) := none

/-- A ruleset JSON object; `providers := none` models an object without a
(truthy) `providers` mapping, and the provider list carries the mapping's
insertion order (`Object.values`). -/
structure RulesJson where
  providers : Option (List Provider)

/-- Result record of `applyClearUrls`. -/
structure ApplyResult where
  url : String
  changed : Bool
  error : Option String := none
deriving DecidableEq, Repr

/-- Provider gate shared by both passes: `urlPattern` compiles and matches
the given string, and no compilable `exceptions` entry matches it. -/
def providerActive (rx : String → Option JSRegex) (s : String) (p : Provider) : Bool :=
  (match rx p.urlPattern with
   | none => false
   | some re => re.test s) &&
  !((p.exceptions.getD []).any (fun ex =>
      match rx ex with
      | none => false
      | some re => re.test s))

/-- One redirection attempt: compile, extract capture group 1 from the
match on `urlStr`, require it truthy, percent-decode (keeping the raw text
on a decoding error) and re-parse; only a valid parse replaces the working
URL and marks the change. -/
def redirStep (rx : String → Option JSRegex) (urlStr : String) (r : String)
    (st : URLValue × Bool) : URLValue × Bool :=
  match rx r with
  | none => st
  | some re =>
    match re.exec1 urlStr with
    | none => st
    | some t =>
      if t.isEmpty then st
      else
        match parseURL (pctDecodeOrRaw t) with
        | none => st
        | some u2 => (u2, true)

/-- Fold of `redirStep` over a provider's redirection list. -/
def redirFold (rx : String → Option JSRegex) (urlStr : String) :
    List String → URLValue × Bool → URLValue × Bool
  | [], st => st
  | r :: rs, st => redirFold rx urlStr rs (redirStep rx urlStr r st)

/-- Redirection handling of one provider: active providers (tested against
the pass-wide `urlStr`) run their redirections in order. -/
def pass1Provider (rx : String → Option JSRegex) (urlStr : String) (p : Provider)
    (st : URLValue × Bool) : URLValue × Bool :=
  if providerActive rx urlStr p then redirFold rx urlStr (p.redirections.getD []) st
  else st

/-- The redirection pass: a single forward sweep over the providers; all
regex tests use `urlStr`, the string of the URL as parsed on entry. -/
def clearPass1 (rx : String → Option JSRegex) (urlStr : String) :
    List Provider → URLValue × Bool → URLValue × Bool
  | [], st => st
  | p :: ps, st => clearPass1 rx urlStr ps (pass1Provider rx urlStr p st)

/-- Regex metacharacter test of the classifier
(`/[.*+?^${}()|[\]\\]/.test(s)`). -/
def hasRegexMeta (s : String) : Bool :=
  s.data.any (fun c =>
    c = '.' || c = '*' || c = '+' || c = '?' || c = '^' || c = '$' ||
    c = '\x7b' || c = '\x7d' || c = '(' || c = ')' || c = '|' ||
    c = '[' || c = ']' || c = '\\')

/-- Classifier test: an entry with no regex metacharacter, no `=`, no `[`,
and no `\b` is used as a plain (literal) parameter name. -/
def isPlainEntry (s : String) : Bool :=
  !hasRegexMeta s && !containsChar s '=' && !containsChar s '[' &&
    !containsSeq ['\\', 'b'] s.data

/-- Classify the raw rule entries of a provider into the lower-cased
literal-name list and the compiled regex list (entries that fail to
compile are dropped). -/
def classifyEntries (rx : String → Option JSRegex) (entries : List String) :
    List String × List JSRegex :=
  entries.foldl
    (fun acc e =>
      if isPlainEntry e then (acc.1 ++ [lowerStr e], acc.2)
      else
        match rx e with
        | some re => (acc.1, acc.2 ++ [re])
        | none => acc)
    ([], [])

/-- Removal condition on a query key: the lower-cased key is in the
literal-name list, or some compiled regex matches the lower-cased key alone
or with a trailing `=` appended. -/
def removeCond (ns : List String) (rl : List JSRegex) (k : String) : Bool :=
  ns.contains (lowerStr k) ||
    rl.any (fun re => re.test (lowerStr k) || re.test (lowerStr k ++ "="))

/-- One raw-rule substitution: compile with flags `ig`, globally replace
with the empty string on the serialized URL; a substitution that changes
the text must re-parse, otherwise it is discarded (prior state kept, the
changed flag untouched). -/
def rawStep (rxg : String → Option JSRegex) (r : String) (st : URLValue × Bool) :
    URLValue × Bool :=
  match rxg r with
  | none => st
  | some re =>
    let before : String := ⟨toStrChars st.1⟩
    let after := re.rall before
    if after = before then st
    else
      match parseURL after with
      | none => st
      | some u2 => (u2, true)

/-- Fold of `rawStep` over a provider's raw-rule list. -/
def rawFold (rxg : String → Option JSRegex) :
    List String → URLValue × Bool → URLValue × Bool
  | [], st => st
  | r :: rs, st => rawFold rxg rs (rawStep rxg r st)

/-- Parameter-removal handling of one provider: gate on the current
working URL's string, build the entry list (`rules` plus
`referralMarketing` unless referral is allowed), classify, delete matching
query keys, then run the raw rules. -/
def pass2Provider (rx rxg : String → Option JSRegex) (allowReferral : Bool)
    (p : Provider) (st : URLValue × Bool) : URLValue × Bool :=
  let s : String := ⟨toStrChars st.1⟩
  if providerActive rx s p then
    let entries := (p.rules.getD []) ++
      (if !allowReferral then p.referralMarketing.getD [] else [])
    let cls := classifyEntries rx entries
    let qs := removeLoop (removeCond cls.1 cls.2) (st.1.query.map (·.1)) (st.1.query, st.2)
    rawFold rxg (p.rawRules.getD []) ({ st.1 with query := qs.1 }, qs.2)
  else st

/-- The parameter-removal pass: a forward sweep over the providers, each
gated against the current working URL. -/
def clearPass2 (rx rxg : String → Option JSRegex) (allowReferral : Bool) :
    List Provider → URLValue × Bool → URLValue × Bool
  | [], st => st
  | p :: ps, st => clearPass2 rx rxg allowReferral ps (pass2Provider rx rxg allowReferral p st)

/-- The rule-engine cleaner `applyClearUrls`.  `rx` and `rxg` are the
regex-compilation oracles for flags `"i"` and `"ig"` respectively. -/
def applyClearUrls (rx rxg : String → Option JSRegex) (inputUrl : String)
    (rulesJson : Option RulesJson) (allowReferral : Bool) : ApplyResult :=
  match rulesJson with
  | none => { url := inputUrl, changed := false, error := some "Rules not available" }
  | some rj =>
    match rj.providers with
    | none => { url := inputUrl, changed := false, error := some "Rules not available" }
    | some providers =>
      match parseURL (jsTrim inputUrl) with
      | none => { url := inputUrl, changed := false, error := some "Invalid URL" }
      | some wu0 =>
        let urlStr : String := ⟨toStrChars wu0⟩
        let st1 := clearPass1 rx urlStr providers (wu0, false)
        let st2 := clearPass2 rx rxg allowReferral providers st1
        { url := outString st2.1, changed := st2.2 }

/-! ### Derived notions used by the theorems -/

/-- Effect of the trailing `?`/`#` strips of `outStringChars` on the
fragment component: one trailing `?` of the fragment is dropped; then, if
the remainder is empty the fragment itself disappears, and otherwise one
trailing `#` is dropped. -/
def fragNormF : Option String → Option String
  | none => none
  | some f =>
    let g2 := if f.data.getLast? = some '?' then f.data.dropLast else f.data
    if g2.isEmpty then none
    else if g2.getLast? = some '#' then some ⟨g2.dropLast⟩
    else some ⟨g2⟩

/-- The URL value recovered by re-parsing a cleaner's output string. -/
def fragNorm (u : URLValue) : URLValue := { u with fragment := fragNormF u.fragment }

/-- A fragment is safe when the trailing strips of the output serialization
cannot eat into it: it is absent, or neither ends with `?` nor with `#`. -/
def fragSafe : Option String → Bool
  | none => true
  | some f => !(f.data.getLast? = some '?' || f.data.getLast? = some '#')

/-- Query keys of a URL string (empty when it does not parse). -/
def queryKeysOfUrl (s : String) : List String :=
  match parseURL s with
  | none => []
  | some u => u.query.map (·.1)

/-- Well-formedness invariant satisfied by every `parseChars` result and
preserved by the cleaners; it is what re-parsing a serialization needs. -/
structure WfURL (u : URLValue) : Prop where
  scheme_ok : schemeOk u.scheme.data = true
  scheme_lower : lowerChars u.scheme.data = u.scheme.data
  host_ne : u.host.data ≠ []
  host_good : ∀ c ∈ u.host.data, hostBadChar c = false ∧ wsLike c = false ∧
    c ≠ '/' ∧ c ≠ ':' ∧ c ≠ '?' ∧ c ≠ '#'
  host_lower : lowerChars u.host.data = u.host.data
  port_lt : ∀ p ∈ u.port, p < 65536
  port_nondefault : ∀ p ∈ u.port, defaultPort u.scheme.data ≠ some p
  path_shape : u.path.data.head? = some '/'
  path_good : ∀ c ∈ u.path.data, wsLike c = false ∧ c ≠ '?' ∧ c ≠ '#'
  frag_good : ∀ f ∈ u.fragment, ∀ c ∈ f.data, wsLike c = false

/-- The ordered built-in redirector rule list, as data: condition, target
extractor and provider id (the refinement statement for the unwrap chain). -/
structure HeurRedirector where
  applies : URLValue → Bool
  target : URLValue → Option String
  source : String

/-- Google, Facebook, Instagram, in the fixed priority order of the code. -/
def builtinRedirectors : List HeurRedirector :=
  [⟨fun u => (jsEndsWith u.host "google.com" || jsEndsWith u.host "google.com.au") &&
      u.path = "/url" && truthyS (firstTruthy (getParam u "url") (getParam u "q")),
    fun u => firstTruthy (getParam u "url") (getParam u "q"), "google"⟩,
   ⟨fun u => (u.host = "l.facebook.com" || u.path = "/l.php") && truthyS (getParam u "u"),
    fun u => getParam u "u", "facebook"⟩,
   ⟨fun u => jsEndsWith u.host "instagram.com" && truthyS (getParam u "u"),
    fun u => getParam u "u", "instagram"⟩]

/-- First applicable redirector rule of a list wins. -/
def firstRedirector (u : URLValue) : List HeurRedirector → Option (String × String)
  | [] => none
  | r :: rs => if r.applies u then (r.target u).map (·, r.source) else firstRedirector u rs

/-- Target extracted by one redirection entry from the pass-wide string:
`some` exactly when the entry compiles, captures a truthy group 1, and the
decoded target re-parses. -/
def redirTarget (rx : String → Option JSRegex) (urlStr : String) (r : String) :
    Option URLValue :=
  match rx r with
  | none => none
  | some re =>
    match re.exec1 urlStr with
    | none => none
    | some t => if t.isEmpty then none else parseURL (pctDecodeOrRaw t)

/-- All redirection targets a provider contributes in the redirection pass
(computed from `urlStr` alone). -/
def providerTargets (rx : String → Option JSRegex) (urlStr : String) (p : Provider) :
    List URLValue :=
  if providerActive rx urlStr p then (p.redirections.getD []).filterMap (redirTarget rx urlStr)
  else []

/-- All redirection targets of the whole pass, in application order. -/
def pass1Targets (rx : String → Option JSRegex) (urlStr : String)
    (ps : List Provider) : List URLValue :=
  (ps.map (providerTargets rx urlStr)).flatten

/-- Test-only regex model used by concrete counterexamples. -/
def reTestOnly (f : String → Bool) : JSRegex := ⟨f, fun _ => none, id⟩

/-- Exec-only regex model used by concrete counterexamples. -/
def reExec (f : String → Option String) : JSRegex := ⟨fun s => (f s).isSome, f, id⟩

/-- Serialized port component. -/
def portChars (u : URLValue) : List Char :=
  match u.port with
  | none => []
  | some p => ':' :: natToChars p

/-- Serialized query component (with its `?`). -/
def queryChars (u : URLValue) : List Char :=
  match u.query with
  | [] => []
  | q => '?' :: serializeFormChars q

/-- Scheme, authority and path part of the serialization, right-nested. -/
def baseChars (u : URLValue) : List Char :=
  u.scheme.data ++ ':' :: '/' :: '/' :: (u.host.data ++ (portChars u ++ u.path.data))

/-- Fragment tail used when re-assembling a serialization. -/
def ftChars : Option (List Char) → List Char
  | none => []
  | some g => '#' :: g

/-! ### Utility lemmas -/

/-- Concrete regex oracle of the redirection-chaining counterexample:
provider patterns `PA`/`PB` match the a- resp. b-host strings, and
redirections `RA`/`RB` extract the next hop from them. -/
def rxC1 (r : String) : Option JSRegex :=
  if r = "PA" then some (reTestOnly (fun s => s = "https://a.example/"))
  else if r = "RA" then some (reExec (fun s =>
    if s = "https://a.example/" then some "https://b.example/" else none))
  else if r = "PB" then some (reTestOnly (fun s => jsStartsWith s "https://b.example"))
  else if r = "RB" then some (reExec (fun s =>
    if jsStartsWith s "https://b.example" then some "https://c.example/" else none))
  else none

/-- Provider list of the redirection-chaining counterexample. -/
def psC1 : List Provider :=
  [{ urlPattern := "PA", redirections := some ["RA"] },
   { urlPattern := "PB", redirections := some ["RB"] }]

/-- Oracle of the parameter-removal witness: pattern `X` matches anything. -/
def rxW (r : String) : Option JSRegex :=
  if r = "X" then some (reTestOnly (fun _ => true)) else none

/-- Provider of the parameter-removal witness. -/
def pW : Provider := { urlPattern := "X", rules := some ["foo"] }

/-- URL value of the parameter-removal witness. -/
def uW : URLValue :=
  { scheme := "https", host := "x.example", port := none, path := "/",
    query := [("foo", "1"), ("bar", "2")], fragment := none }

/-- Raw-rule regex of the discard witness: it rewrites any text to a
non-URL. -/
def reBad : JSRegex := ⟨fun _ => false, fun _ => none, fun _ => "NOTAURL"⟩

theorem splitFirst_of_not_mem {c : Char} {l : List Char} (h : c ∉ l) :
    splitFirst c l = (l, none) := by
  induction l with
  | nil => rfl
  | cons x xs ih =>
    simp only [List.mem_cons, not_or] at h
    have hne : ¬x = c := fun hx => h.1 hx.symm
    simp [splitFirst, hne, ih h.2]

theorem splitFirst_append {c : Char} {a b : List Char} (h : c ∉ a) :
    splitFirst c (a ++ c :: b) = (a, some b) := by
  induction a with
  | nil => simp [splitFirst]
  | cons x xs ih =>
    simp only [List.mem_cons, not_or] at h
    have hne : ¬x = c := fun hx => h.1 hx.symm
    simp [splitFirst, hne, ih h.2]

theorem not_mem_splitFirst_fst (c : Char) (l : List Char) : c ∉ (splitFirst c l).1 := by
  induction l with
  | nil => simp [splitFirst]
  | cons x xs ih =>
    by_cases hx : x = c
    · simp [splitFirst, hx]
    · have hne : ¬c = x := fun he => hx he.symm
      simp [splitFirst, hx, ih, hne]

theorem mem_of_splitFirst_fst {c x : Char} {l : List Char}
    (h : x ∈ (splitFirst c l).1) : x ∈ l := by
  induction l with
  | nil => simp [splitFirst] at h
  | cons y ys ih =>
    by_cases hy : y = c
    · simp [splitFirst, hy] at h
    · simp only [splitFirst, if_neg hy] at h
      rcases List.mem_cons.1 h with h1 | h1
      · simp [h1]
      · exact List.mem_cons_of_mem _ (ih h1)

theorem mem_of_splitFirst_snd {c x : Char} {l b : List Char}
    (h : (splitFirst c l).2 = some b) (hx : x ∈ b) : x ∈ l := by
  induction l with
  | nil => simp [splitFirst] at h
  | cons y ys ih =>
    by_cases hy : y = c
    · simp only [splitFirst, if_pos hy] at h
      cases h
      exact List.mem_cons_of_mem _ hx
    · simp only [splitFirst, if_neg hy] at h
      exact List.mem_cons_of_mem _ (ih h)

theorem splitSeg_of_not_mem {c : Char} {l : List Char} (h : c ∉ l) :
    splitSeg c l = [l] := by
  induction l with
  | nil => rfl
  | cons x xs ih =>
    simp only [List.mem_cons, not_or] at h
    have hne : ¬x = c := fun hx => h.1 hx.symm
    simp [splitSeg, hne, ih h.2]

theorem splitSeg_append {c : Char} {a b : List Char} (h : c ∉ a) :
    splitSeg c (a ++ c :: b) = a :: splitSeg c b := by
  induction a with
  | nil => simp [splitSeg]
  | cons x xs ih =>
    simp only [List.mem_cons, not_or] at h
    have hne : ¬x = c := fun hx => h.1 hx.symm
    simp only [List.cons_append, splitSeg, if_neg hne, List.append_eq, ih h.2]

theorem dropWhile_eq_self_of_all {p : Char → Bool} {l : List Char}
    (h : ∀ c ∈ l, p c = false) : l.dropWhile p = l := by
  cases l with
  | nil => rfl
  | cons x xs => simp [List.dropWhile_cons, h x (List.mem_cons_self _ _)]

theorem jsTrimChars_of_clean {l : List Char} (h : ∀ c ∈ l, wsLike c = false) :
    jsTrimChars l = l := by
  unfold jsTrimChars
  rw [dropWhile_eq_self_of_all h, dropWhile_eq_self_of_all, List.reverse_reverse]
  intro c hc
  exact h c (List.mem_reverse.1 hc)

theorem char_ne_of_toNat_ne {c d : Char} (h : c.toNat ≠ d.toNat) : c ≠ d :=
  fun he => h (he ▸ rfl)

theorem toNat_ofNat_valid {n : Nat} (h : n.isValidChar) : (Char.ofNat n).toNat = n := by
  rw [Char.ofNat, dif_pos h]
  rfl

theorem isValidChar_of_small {n : Nat} (h : n < 55296) : n.isValidChar := Or.inl h

theorem toNat_toLower (c : Char) :
    c.toLower.toNat = if 65 ≤ c.toNat ∧ c.toNat ≤ 90 then c.toNat + 32 else c.toNat := by
  unfold Char.toLower
  by_cases h : 65 ≤ c.toNat ∧ c.toNat ≤ 90
  · rw [if_pos ⟨h.1, h.2⟩, if_pos h, toNat_ofNat_valid (isValidChar_of_small (by omega))]
  · rw [if_neg, if_neg h]
    intro hc
    exact h ⟨hc.1, hc.2⟩

theorem toLower_eq_or (c : Char) :
    Char.toLower c = c ∨ (97 ≤ (Char.toLower c).toNat ∧ (Char.toLower c).toNat ≤ 122) := by
  have := toNat_toLower c
  by_cases h : 65 ≤ c.toNat ∧ c.toNat ≤ 90
  · right
    rw [this, if_pos h]
    omega
  · left
    rw [if_neg h] at this
    exact Char.ext (UInt32.ext this)

theorem toLower_toLower (c : Char) : Char.toLower (Char.toLower c) = Char.toLower c := by
  rcases toLower_eq_or c with h | h
  · rw [h, h]
  · have hn := toNat_toLower (Char.toLower c)
    rw [if_neg (by omega)] at hn
    exact Char.ext (UInt32.ext hn)

theorem lowerChars_idem (l : List Char) : lowerChars (lowerChars l) = lowerChars l := by
  unfold lowerChars
  rw [List.map_map]
  exact List.map_congr_left (fun c _ => toLower_toLower c)

theorem digitVal_digitChar10 {d : Nat} (h : d < 10) : digitVal (digitChar10 d) = some d := by
  unfold digitVal digitChar10
  rw [toNat_ofNat_valid (isValidChar_of_small (by omega)), if_pos (by omega)]
  congr 1
  omega

theorem toNat_digitChar10 {d : Nat} (h : d < 10) : (digitChar10 d).toNat = 48 + d := by
  unfold digitChar10
  exact toNat_ofNat_valid (isValidChar_of_small (by omega))

theorem natToChars_ne_nil (n : Nat) : natToChars n ≠ [] := by
  unfold natToChars
  by_cases h : n < 10
  · simp [h]
  · simp [h]

theorem natToChars_digits (n : Nat) : ∀ c ∈ natToChars n, 48 ≤ c.toNat ∧ c.toNat ≤ 57 := by
  induction n using Nat.strong_induction_on with
  | _ n ih =>
    intro c hc
    unfold natToChars at hc
    by_cases h : n < 10
    · rw [dif_pos h] at hc
      rcases List.mem_singleton.1 hc with rfl
      rw [toNat_digitChar10 h]
      omega
    · rw [dif_neg h] at hc
      rcases List.mem_append.1 hc with h1 | h1
      · exact ih (n / 10) (Nat.div_lt_self (by omega) (by decide)) c h1
      · rcases List.mem_singleton.1 h1 with rfl
        rw [toNat_digitChar10 (Nat.mod_lt _ (by decide))]
        have := Nat.mod_lt n (y := 10) (by decide)
        omega

theorem charsToNatGo_append (acc : Nat) (a b : List Char) :
    charsToNatGo acc (a ++ b) =
      match charsToNatGo acc a with
      | some m => charsToNatGo m b
      | none => none := by
  induction a generalizing acc with
  | nil => simp [charsToNatGo]
  | cons c cs ih =>
    simp only [List.cons_append, charsToNatGo]
    cases digitVal c with
    | none => simp
    | some d => simpa using ih (acc * 10 + d)

theorem charsToNatGo_natToChars (n : Nat) :
    ∀ acc, charsToNatGo acc (natToChars n) = some (acc * 10 ^ (natToChars n).length + n) := by
  induction n using Nat.strong_induction_on with
  | _ n ih =>
    intro acc
    by_cases h : n < 10
    · unfold natToChars
      rw [dif_pos h]
      simp [charsToNatGo, digitVal_digitChar10 h]
    · unfold natToChars
      rw [dif_neg h]
      rw [charsToNatGo_append]
      rw [ih (n / 10) (Nat.div_lt_self (by omega) (by decide)) acc]
      have hm : n % 10 < 10 := Nat.mod_lt _ (by decide)
      simp only [charsToNatGo, digitVal_digitChar10 hm]
      congr 1
      have hdm := Nat.div_add_mod n 10
      simp only [List.length_append, List.length_singleton]
      ring_nf
      omega

theorem charsToNat_natToChars (n : Nat) : charsToNat (natToChars n) = some n := by
  unfold charsToNat
  have hne := natToChars_ne_nil n
  cases hc : natToChars n with
  | nil => exact absurd hc hne
  | cons c cs =>
    have h2 := charsToNatGo_natToChars n 0
    rw [hc] at h2
    simpa using h2

theorem char_eq_of_toNat {c d : Char} (h : c.toNat = d.toNat) : c = d :=
  Char.ext (UInt32.ext h)

theorem hexVal_hexDigitChar {n : Nat} (h : n < 16) : hexVal (hexDigitChar n) = some n := by
  unfold hexDigitChar hexVal
  by_cases h10 : n < 10
  · rw [if_pos h10, toNat_ofNat_valid (isValidChar_of_small (by omega)),
      if_pos (by omega)]
    congr 1
    omega
  · rw [if_neg h10, toNat_ofNat_valid (isValidChar_of_small (by omega)),
      if_neg (by omega), if_pos (by omega)]
    congr 1
    omega

theorem toNat_hexDigitChar {n : Nat} (h : n < 16) :
    (hexDigitChar n).toNat = if n < 10 then 48 + n else 55 + n := by
  unfold hexDigitChar
  by_cases h10 : n < 10
  · rw [if_pos h10, if_pos h10, toNat_ofNat_valid (isValidChar_of_small (by omega))]
  · rw [if_neg h10, if_neg h10, toNat_ofNat_valid (isValidChar_of_small (by omega))]

theorem formUnreserved_ranges {c : Char} (h : formUnreserved c = true) :
    (97 ≤ c.toNat ∧ c.toNat ≤ 122) ∨ (65 ≤ c.toNat ∧ c.toNat ≤ 90) ∨
    (48 ≤ c.toNat ∧ c.toNat ≤ 57) ∨ c.toNat = 42 ∨ c.toNat = 45 ∨
    c.toNat = 46 ∨ c.toNat = 95 := by
  unfold formUnreserved at h
  simp only [Bool.or_eq_true, Bool.and_eq_true, decide_eq_true_eq] at h
  rcases h with ((((((h | h) | h) | rfl) | rfl) | rfl) | rfl) <;> simp_all

/-- Every character emitted by the form encoder is above U+0020 and is
none of `&` (38), `=` (61), `#` (35), `?` (63). -/
theorem formEncodeChars_good {l : List Char} :
    ∀ c ∈ formEncodeChars l,
      32 < c.toNat ∧ c.toNat ≠ 38 ∧ c.toNat ≠ 61 ∧ c.toNat ≠ 35 ∧ c.toNat ≠ 63 := by
  induction l with
  | nil => simp [formEncodeChars]
  | cons c rest ih =>
    intro d hd
    unfold formEncodeChars at hd
    by_cases hsp : c = ' '
    · rw [if_pos hsp] at hd
      rcases List.mem_cons.1 hd with rfl | h1
      · exact ⟨by decide, by decide, by decide, by decide, by decide⟩
      · exact ih d h1
    · rw [if_neg hsp] at hd
      by_cases hun : formUnreserved c = true
      · rw [if_pos hun] at hd
        rcases List.mem_cons.1 hd with rfl | h1
        · have hr := formUnreserved_ranges hun
          refine ⟨?_, ?_, ?_, ?_, ?_⟩ <;> omega
        · exact ih d h1
      · rw [if_neg hun] at hd
        by_cases h256 : c.toNat < 256
        · rw [if_pos h256] at hd
          have hdiv : c.toNat / 16 < 16 := by omega
          have hmod : c.toNat % 16 < 16 := Nat.mod_lt _ (by decide)
          rcases List.mem_cons.1 hd with rfl | hd1
          · exact ⟨by decide, by decide, by decide, by decide, by decide⟩
          rcases List.mem_cons.1 hd1 with rfl | hd2
          · have ht := toNat_hexDigitChar hdiv
            refine ⟨?_, ?_, ?_, ?_, ?_⟩ <;> (rw [ht]; split <;> omega)
          rcases List.mem_cons.1 hd2 with rfl | hd3
          · have ht := toNat_hexDigitChar hmod
            refine ⟨?_, ?_, ?_, ?_, ?_⟩ <;> (rw [ht]; split <;> omega)
          · exact ih d hd3
        · rw [if_neg h256] at hd
          rcases List.mem_cons.1 hd with rfl | h1
          · refine ⟨?_, ?_, ?_, ?_, ?_⟩ <;> omega
          · exact ih d h1

/-- Membership exclusion from the `toNat` form of `formEncodeChars_good`. -/
theorem not_mem_formEncodeChars {l : List Char} {d : Char}
    (h : ∀ c ∈ formEncodeChars l, c.toNat ≠ d.toNat) : d ∉ formEncodeChars l :=
  fun hd => h d hd rfl

theorem formDecodeChars_plus (rest : List Char) :
    formDecodeChars ('+' :: rest) = ' ' :: formDecodeChars rest := by
  rw [formDecodeChars.eq_def]
  simp

theorem formDecodeChars_other {c : Char} (rest : List Char)
    (h1 : ¬c = '+') (h2 : ¬c = '%') :
    formDecodeChars (c :: rest) = c :: formDecodeChars rest := by
  rw [formDecodeChars.eq_def]
  simp [h1, h2]

theorem formDecodeChars_pct {a b : Char} {ha hb : Nat} (rest2 : List Char)
    (h1 : hexVal a = some ha) (h2 : hexVal b = some hb) :
    formDecodeChars ('%' :: a :: b :: rest2) =
      Char.ofNat (16 * ha + hb) :: formDecodeChars rest2 := by
  rw [formDecodeChars.eq_def]
  simp [h1, h2]

theorem formDecode_formEncode (l : List Char) :
    formDecodeChars (formEncodeChars l) = l := by
  induction l with
  | nil => rfl
  | cons c rest ih =>
    unfold formEncodeChars
    by_cases hsp : c = ' '
    · rw [if_pos hsp, hsp, formDecodeChars_plus, ih]
    · rw [if_neg hsp]
      by_cases hun : formUnreserved c = true
      · rw [if_pos hun]
        have hplus : ¬c = '+' := by
          intro he
          rw [he] at hun
          exact absurd hun (by decide)
        have hpct : ¬c = '%' := by
          intro he
          rw [he] at hun
          exact absurd hun (by decide)
        rw [formDecodeChars_other _ hplus hpct, ih]
      · rw [if_neg hun]
        by_cases h256 : c.toNat < 256
        · rw [if_pos h256]
          rw [formDecodeChars_pct _ (hexVal_hexDigitChar (show c.toNat / 16 < 16 by omega))
            (hexVal_hexDigitChar (Nat.mod_lt c.toNat (y := 16) (by decide))), ih]
          have hc : 16 * (c.toNat / 16) + c.toNat % 16 = c.toNat := by
            have := Nat.div_add_mod c.toNat 16
            omega
          rw [hc, Char.ofNat_toNat]
        · rw [if_neg h256]
          have hplus : ¬c = '+' := by
            intro he
            rw [he] at h256
            exact h256 (by decide)
          have hpct : ¬c = '%' := by
            intro he
            rw [he] at h256
            exact h256 (by decide)
          rw [formDecodeChars_other _ hplus hpct, ih]

theorem eq_char_not_mem_encode (s : List Char) : '=' ∉ formEncodeChars s :=
  not_mem_formEncodeChars (fun c hc => (formEncodeChars_good c hc).2.2.1)

theorem amp_not_mem_encode (s : List Char) : '&' ∉ formEncodeChars s :=
  not_mem_formEncodeChars (fun c hc => (formEncodeChars_good c hc).2.1)

theorem serializePairChars_good (kv : String × String) :
    ∀ c ∈ serializePairChars kv, 32 < c.toNat ∧ c.toNat ≠ 35 ∧ c.toNat ≠ 63 := by
  intro c hc
  unfold serializePairChars at hc
  rcases List.mem_append.1 hc with h1 | h1
  · have := formEncodeChars_good c h1
    exact ⟨this.1, this.2.2.2.1, this.2.2.2.2⟩
  · rcases List.mem_cons.1 h1 with rfl | h2
    · exact ⟨by decide, by decide, by decide⟩
    · have := formEncodeChars_good c h2
      exact ⟨this.1, this.2.2.2.1, this.2.2.2.2⟩

theorem amp_not_mem_pair (kv : String × String) : '&' ∉ serializePairChars kv := by
  intro hc
  unfold serializePairChars at hc
  rcases List.mem_append.1 hc with h1 | h1
  · exact amp_not_mem_encode _ h1
  · rcases List.mem_cons.1 h1 with he | h2
    · exact absurd he (by decide)
    · exact amp_not_mem_encode _ h2

theorem serializeFormChars_good (l : List (String × String)) :
    ∀ c ∈ serializeFormChars l, 32 < c.toNat ∧ c.toNat ≠ 35 ∧ c.toNat ≠ 63 := by
  induction l with
  | nil => simp [serializeFormChars]
  | cons kv rest ih =>
    intro c hc
    cases rest with
    | nil => exact serializePairChars_good kv c hc
    | cons kv2 rest2 =>
      unfold serializeFormChars at hc
      rcases List.mem_append.1 hc with h1 | h1
      · exact serializePairChars_good kv c h1
      · rcases List.mem_cons.1 h1 with rfl | h2
        · exact ⟨by decide, by decide, by decide⟩
        · exact ih c h2

theorem parseSeg_pair (kv : String × String) :
    parseSeg (serializePairChars kv) = some kv := by
  unfold parseSeg serializePairChars
  rw [if_neg (by simp)]
  rw [splitFirst_append (eq_char_not_mem_encode _)]
  simp only [formDecode_formEncode]

theorem parseForm_serializeForm (l : List (String × String)) :
    parseForm (serializeFormChars l) = l := by
  induction l with
  | nil => rfl
  | cons kv rest ih =>
    cases rest with
    | nil =>
      unfold parseForm serializeFormChars
      rw [splitSeg_of_not_mem (amp_not_mem_pair kv)]
      simp [parseSeg_pair]
    | cons kv2 rest2 =>
      unfold parseForm serializeFormChars
      rw [splitSeg_append (amp_not_mem_pair kv)]
      simp only [List.filterMap_cons, parseSeg_pair]
      unfold parseForm at ih
      rw [List.cons.injEq]
      exact ⟨rfl, ih⟩

theorem hostBadChar_false_iff (c : Char) :
    hostBadChar c = false ↔ (c ≠ '@' ∧ c ≠ '[' ∧ c ≠ ']' ∧ c ≠ '\\' ∧ c ≠ '%') := by
  simp [hostBadChar, not_or]
  tauto

theorem wsLike_false_iff (c : Char) : wsLike c = false ↔ 32 < c.toNat := by
  simp [wsLike]

theorem toLower_host_facts {c : Char} (hb : hostBadChar c = false) (hw : wsLike c = false)
    (h1 : c ≠ '/') (h2 : c ≠ ':') (h3 : c ≠ '?') (h4 : c ≠ '#') :
    hostBadChar c.toLower = false ∧ wsLike c.toLower = false ∧
    c.toLower ≠ '/' ∧ c.toLower ≠ ':' ∧ c.toLower ≠ '?' ∧ c.toLower ≠ '#' := by
  rcases toLower_eq_or c with he | hr
  · rw [he]
    exact ⟨hb, hw, h1, h2, h3, h4⟩
  · have e1 : '@'.toNat = 64 := rfl
    have e2 : '['.toNat = 91 := rfl
    have e3 : ']'.toNat = 93 := rfl
    have e4 : '\\'.toNat = 92 := rfl
    have e5 : '%'.toNat = 37 := rfl
    have e6 : '/'.toNat = 47 := rfl
    have e7 : ':'.toNat = 58 := rfl
    have e8 : '?'.toNat = 63 := rfl
    have e9 : '#'.toNat = 35 := rfl
    refine ⟨(hostBadChar_false_iff _).2 ⟨?_, ?_, ?_, ?_, ?_⟩,
      (wsLike_false_iff _).2 (by omega), ?_, ?_, ?_, ?_⟩ <;>
      (apply char_ne_of_toNat_ne; simp only [e1, e2, e3, e4, e5, e6, e7, e8, e9]; omega)

theorem schemeChar_toLower {c : Char} (h : schemeChar c = true) :
    schemeChar c.toLower = true := by
  rcases toLower_eq_or c with he | hr
  · rw [he]
    exact h
  · unfold schemeChar
    simp only [Bool.or_eq_true, Bool.and_eq_true, decide_eq_true_eq]
    left
    left
    left
    left
    right
    omega

theorem schemeOk_lower {l : List Char} (h : schemeOk l = true) :
    schemeOk (lowerChars l) = true := by
  cases l with
  | nil => exact absurd h (by decide)
  | cons c cs =>
    unfold schemeOk at h ⊢
    simp only [lowerChars, List.map_cons]
    simp only [Bool.and_eq_true, Bool.or_eq_true, decide_eq_true_eq] at h ⊢
    constructor
    · rcases toLower_eq_or c with he | hr
      · rw [he]
        exact h.1
      · right
        omega
    · rw [List.all_eq_true] at h ⊢
      intro x hx
      rcases List.mem_map.1 hx with ⟨y, hy, rfl⟩
      exact schemeChar_toLower (h.2 y hy)

theorem scheme_chars_facts {l : List Char} (h : schemeOk l = true) :
    ∀ c ∈ l, 32 < c.toNat ∧ c.toNat ≠ 58 ∧ c.toNat ≠ 47 ∧ c.toNat ≠ 63 ∧ c.toNat ≠ 35 := by
  cases l with
  | nil => simp
  | cons c cs =>
    unfold schemeOk at h
    simp only [Bool.and_eq_true, Bool.or_eq_true, decide_eq_true_eq] at h
    intro d hd
    rcases List.mem_cons.1 hd with rfl | h1
    · rcases h.1 with h2 | h2 <;> omega
    · have := (List.all_eq_true.1 h.2) d h1
      unfold schemeChar at this
      simp only [Bool.or_eq_true, Bool.and_eq_true, decide_eq_true_eq] at this
      rcases this with ((((h2 | h2) | h2) | rfl) | rfl) | rfl <;>
        first
        | omega
        | exact ⟨by decide, by decide, by decide, by decide, by decide⟩

theorem parseHostPort_inv {scheme auth : List Char} {hp : List Char × Option Nat}
    (h : parseHostPort scheme auth = some hp) :
    hp.1 = lowerChars (splitFirst ':' auth).1 ∧ (splitFirst ':' auth).1 ≠ [] ∧
      (splitFirst ':' auth).1.any hostBadChar = false ∧
      (∀ p ∈ hp.2, p < 65536 ∧ defaultPort scheme ≠ some p) := by
  unfold parseHostPort at h
  split at h
  · exact absurd h (by simp)
  · split at h
    rename_i hostRaw portPart heq
    split at h
    · exact absurd h (by simp)
    · rename_i hne
      split at h
      · exact absurd h (by simp)
      · rename_i hbad
        rw [heq]
        simp only [Bool.not_eq_true] at hne hbad
        have hne2 : hostRaw ≠ [] := fun he => by simp [he] at hne
        split at h
        · simp only [Option.some.injEq] at h
          subst h
          exact ⟨rfl, hne2, hbad, by simp⟩
        · rename_i pp heqpp
          split at h
          · simp only [Option.some.injEq] at h
            subst h
            exact ⟨rfl, hne2, hbad, by simp⟩
          · split at h
            · exact absurd h (by simp)
            · rename_i p hcn
              split at h
              · exact absurd h (by simp)
              · rename_i hge
                split at h
                · simp only [Option.some.injEq] at h
                  subst h
                  exact ⟨rfl, hne2, hbad, by simp⟩
                · rename_i hdef
                  simp only [Option.some.injEq] at h
                  subst h
                  refine ⟨rfl, hne2, hbad, ?_⟩
                  intro q hq
                  have hpq : p = q := by simpa using hq
                  subst hpq
                  exact ⟨by omega, hdef⟩

theorem wf_of_parseChars {l0 : List Char} {u : URLValue}
    (h : parseChars l0 = some u) : WfURL u := by
  simp only [parseChars] at h
  split at h
  · exact absurd h (by simp)
  · rename_i hws
    split at h
    · exact absurd h (by simp)
    · rename_i schemeRaw rest1 hsp
      split at h
      case isFalse => exact absurd h (by simp)
      rename_i hscheme
      split at h
      case h_2 => exact absurd h (by simp)
      rename_i rest2
      split at h
      · exact absurd h (by simp)
      · rename_i hp hhp
        simp only [Option.some.injEq] at h
        subst h
        obtain ⟨hh1, hh2, hh3, hport⟩ := parseHostPort_inv hhp
        rw [Bool.not_eq_true, List.any_eq_false] at hws
        have hclean : ∀ c ∈ jsTrimChars l0, wsLike c = false := fun c hc => by
          simpa using hws c hc
        have hfr : ∀ c ∈ (splitFirst '#' (jsTrimChars l0)).1, c ∈ jsTrimChars l0 :=
          fun c hc => mem_of_splitFirst_fst hc
        have hqr : ∀ c ∈ (splitFirst '?' (splitFirst '#' (jsTrimChars l0)).1).1,
            c ∈ (splitFirst '#' (jsTrimChars l0)).1 :=
          fun c hc => mem_of_splitFirst_fst hc
        have hnq : '?' ∉ (splitFirst '?' (splitFirst '#' (jsTrimChars l0)).1).1 :=
          not_mem_splitFirst_fst _ _
        have hnh : '#' ∉ (splitFirst '#' (jsTrimChars l0)).1 :=
          not_mem_splitFirst_fst _ _
        have hsp2 : (splitFirst ':' (splitFirst '?' (splitFirst '#' (jsTrimChars l0)).1).1).2
            = some ('/' :: '/' :: rest2) := by rw [hsp]
        have hr2q : ∀ c ∈ rest2,
            c ∈ (splitFirst '?' (splitFirst '#' (jsTrimChars l0)).1).1 :=
          fun c hc => mem_of_splitFirst_snd hsp2
            (List.mem_cons_of_mem _ (List.mem_cons_of_mem _ hc))
        have har : ∀ c ∈ (splitFirst '/' rest2).1, c ∈ rest2 :=
          fun c hc => mem_of_splitFirst_fst hc
        have hnsl : '/' ∉ (splitFirst '/' rest2).1 := not_mem_splitFirst_fst _ _
        have hhostsub : ∀ c ∈ (splitFirst ':' (splitFirst '/' rest2).1).1,
            c ∈ (splitFirst '/' rest2).1 :=
          fun c hc => mem_of_splitFirst_fst hc
        have hnc : ':' ∉ (splitFirst ':' (splitFirst '/' rest2).1).1 :=
          not_mem_splitFirst_fst _ _
        rw [List.any_eq_false] at hh3
        have hh4 : ∀ c ∈ (splitFirst ':' (splitFirst '/' rest2).1).1,
            hostBadChar c = false := fun c hc => by simpa using hh3 c hc
        have hostFacts : ∀ c ∈ (splitFirst ':' (splitFirst '/' rest2).1).1,
            hostBadChar c = false ∧ wsLike c = false ∧
            c ≠ '/' ∧ c ≠ ':' ∧ c ≠ '?' ∧ c ≠ '#' := by
          intro c hc
          have hinA := hhostsub c hc
          have hinR2 := har c hinA
          refine ⟨hh4 c hc, hclean c (hfr _ (hqr _ (hr2q c hinR2))), ?_, ?_, ?_, ?_⟩
          · exact fun he => hnsl (he ▸ hinA)
          · exact fun he => hnc (he ▸ hc)
          · exact fun he => hnq (he ▸ hr2q c hinR2)
          · exact fun he => hnh (he ▸ hqr _ (hr2q c hinR2))
        refine ⟨?_, ?_, ?_, ?_, ?_, ?_, ?_, ?_, ?_, ?_⟩
        · exact schemeOk_lower hscheme
        · exact lowerChars_idem _
        · rw [hh1]
          simp only [lowerChars]
          exact fun he => hh2 (List.map_eq_nil_iff.1 he)
        · intro c hc
          rw [hh1] at hc
          rcases List.mem_map.1 hc with ⟨d, hd, rfl⟩
          obtain ⟨f1, f2, f3, f4, f5, f6⟩ := hostFacts d hd
          exact toLower_host_facts f1 f2 f3 f4 f5 f6
        · rw [hh1]
          exact congrArg (fun z => String.data (String.mk z)) (lowerChars_idem _)
        · intro p hpp
          exact (hport p hpp).1
        · intro p hpp
          exact (hport p hpp).2
        · cases hpr : (splitFirst '/' rest2).2 with
          | none => simp [hpr]
          | some pr => simp [hpr]
        · intro c hc
          rcases hps : (splitFirst '/' rest2).2 with _ | pr
          · rw [hps] at hc
            simp only [] at hc
            rcases List.mem_singleton.1 hc with rfl
            exact ⟨by decide, by decide, by decide⟩
          · rw [hps] at hc
            simp only [] at hc
            rcases List.mem_cons.1 hc with rfl | hc2
            · exact ⟨by decide, by decide, by decide⟩
            · have hinR2 : c ∈ rest2 := mem_of_splitFirst_snd (by rw [hps]) hc2
              refine ⟨hclean c (hfr _ (hqr _ (hr2q c hinR2))), ?_, ?_⟩
              · exact fun he => hnq (he ▸ hr2q c hinR2)
              · exact fun he => hnh (he ▸ hqr _ (hr2q c hinR2))
        · intro f hf c hc
          rcases Option.map_eq_some'.1 (Option.mem_def.1 hf) with ⟨f0, hf0, rfl⟩
          have hcl : c ∈ jsTrimChars l0 := mem_of_splitFirst_snd hf0 hc
          exact hclean c hcl

theorem ne_char_of_toNat {c d : Char} {n : Nat} (hd : d.toNat = n) (h : c.toNat ≠ n) :
    c ≠ d := char_ne_of_toNat_ne (by rw [hd]; exact h)

theorem toStr_noFrag_eq (u : URLValue) :
    toStrChars { u with fragment := none } = baseChars u ++ queryChars u := by
  simp [toStrChars, baseChars, portChars, queryChars, List.append_assoc]

theorem toStr_eq_chunks (u : URLValue) :
    toStrChars u = baseChars u ++ queryChars u ++
      (match u.fragment with
       | none => []
       | some f => '#' :: f.data) := by
  simp [toStrChars, baseChars, portChars, queryChars, List.append_assoc]

theorem wf_scheme_facts {u : URLValue} (h : WfURL u) :
    ∀ c ∈ u.scheme.data, wsLike c = false ∧ c ≠ ':' ∧ c ≠ '/' ∧ c ≠ '?' ∧ c ≠ '#' := by
  intro c hc
  obtain ⟨h1, h2, h3, h4, h5⟩ := scheme_chars_facts h.scheme_ok c hc
  exact ⟨(wsLike_false_iff c).2 h1, ne_char_of_toNat rfl h2, ne_char_of_toNat rfl h3,
    ne_char_of_toNat rfl h4, ne_char_of_toNat rfl h5⟩

theorem portChars_facts (u : URLValue) :
    ∀ c ∈ portChars u, wsLike c = false ∧ c ≠ '/' ∧ c ≠ '#' ∧ c ≠ '?' ∧ c ≠ '@' ∧ c ≠ ':' ∨
      c = ':' := by
  intro c hc
  unfold portChars at hc
  cases hu : u.port with
  | none => rw [hu] at hc; simp at hc
  | some p =>
    rw [hu] at hc
    rcases List.mem_cons.1 hc with rfl | h1
    · right
      rfl
    · left
      obtain ⟨d1, d2⟩ := natToChars_digits p c h1
      exact ⟨(wsLike_false_iff c).2 (by omega),
        ne_char_of_toNat (show ('/').toNat = 47 from rfl) (by omega),
        ne_char_of_toNat (show ('#').toNat = 35 from rfl) (by omega),
        ne_char_of_toNat (show ('?').toNat = 63 from rfl) (by omega),
        ne_char_of_toNat (show ('@').toNat = 64 from rfl) (by omega),
        ne_char_of_toNat (show (':').toNat = 58 from rfl) (by omega)⟩

theorem baseChars_facts {u : URLValue} (h : WfURL u) :
    ∀ c ∈ baseChars u, wsLike c = false ∧ c ≠ '?' ∧ c ≠ '#' := by
  intro c hc
  unfold baseChars at hc
  rcases List.mem_append.1 hc with h1 | h1
  · obtain ⟨f1, _, _, f4, f5⟩ := wf_scheme_facts h c h1
    exact ⟨f1, f4, f5⟩
  · rcases List.mem_cons.1 h1 with rfl | h2
    · exact ⟨by decide, by decide, by decide⟩
    rcases List.mem_cons.1 h2 with rfl | h3
    · exact ⟨by decide, by decide, by decide⟩
    rcases List.mem_cons.1 h3 with rfl | h4
    · exact ⟨by decide, by decide, by decide⟩
    rcases List.mem_append.1 h4 with h5 | h5
    · obtain ⟨_, f2, _, _, f5, f6⟩ := h.host_good c h5
      exact ⟨f2, f5, f6⟩
    · rcases List.mem_append.1 h5 with h6 | h6
      · rcases portChars_facts u c h6 with ⟨f1, _, f3, f4, _⟩ | rfl
        · exact ⟨f1, f4, f3⟩
        · exact ⟨by decide, by decide, by decide⟩
      · obtain ⟨f1, f2, f3⟩ := h.path_good c h6
        exact ⟨f1, f2, f3⟩

theorem queryChars_facts (u : URLValue) :
    ∀ c ∈ queryChars u, wsLike c = false ∧ c ≠ '#' := by
  intro c hc
  unfold queryChars at hc
  cases hq : u.query with
  | nil => rw [hq] at hc; simp at hc
  | cons kv rest =>
    rw [hq] at hc
    rcases List.mem_cons.1 hc with rfl | h1
    · exact ⟨by decide, by decide⟩
    · obtain ⟨f1, f2, _⟩ := serializeFormChars_good _ c h1
      exact ⟨(wsLike_false_iff c).2 f1, ne_char_of_toNat rfl f2⟩

theorem parseHostPort_roundtrip {u : URLValue} (h : WfURL u) :
    parseHostPort u.scheme.data (u.host.data ++ portChars u) = some (u.host.data, u.port) := by
  have hat : (u.host.data ++ portChars u).any (fun x => decide (x = '@')) = false := by
    rw [List.any_eq_false]
    intro c hc
    rcases List.mem_append.1 hc with h1 | h1
    · have hb := (hostBadChar_false_iff c).1 (h.host_good c h1).1
      simp [hb.1]
    · rcases portChars_facts u c h1 with ⟨_, _, _, _, f5, _⟩ | rfl
      · simp [f5]
      · simp
  have hcolon : ':' ∉ u.host.data := fun hc => (h.host_good _ hc).2.2.2.1 rfl
  have hne : u.host.data.isEmpty = false := by
    rcases he : u.host.data with _ | ⟨c, cs⟩
    · exact absurd he h.host_ne
    · rfl
  have hbadf : u.host.data.any hostBadChar = false := by
    rw [List.any_eq_false]
    intro c hc
    simp [(h.host_good c hc).1]
  unfold parseHostPort
  rw [hat]
  simp only [Bool.false_eq_true, if_false]
  cases hport : u.port with
  | none =>
    have hpc : portChars u = [] := by simp [portChars, hport]
    rw [hpc, List.append_nil, splitFirst_of_not_mem hcolon]
    simp only [hne, hbadf, Bool.false_eq_true, if_false]
    rw [h.host_lower]
  | some p =>
    have hpc : portChars u = ':' :: natToChars p := by simp [portChars, hport]
    rw [hpc, splitFirst_append hcolon]
    simp only [hne, hbadf, Bool.false_eq_true, if_false]
    have hppne : (natToChars p).isEmpty = false := by
      rcases he : natToChars p with _ | ⟨c, cs⟩
      · exact absurd he (natToChars_ne_nil p)
      · rfl
    rw [hppne]
    simp only [Bool.false_eq_true, if_false]
    rw [charsToNat_natToChars]
    have hlt : ¬p ≥ 65536 := by
      have := h.port_lt p (by rw [hport]; rfl)
      omega
    have hdef := h.port_nondefault p (by rw [hport]; rfl)
    simp [hlt, hdef, h.host_lower]

theorem parse_serialized (u : URLValue) (h : WfURL u) (ft : Option (List Char))
    (hft : ∀ g ∈ ft, ∀ c ∈ g, wsLike c = false) :
    parseChars (toStrChars { u with fragment := none } ++ ftChars ft) =
      some { u with fragment := ft.map (fun g => (⟨g⟩ : String)) } := by
  obtain ⟨pt, hpt⟩ : ∃ pt, u.path.data = '/' :: pt := by
    have hs := h.path_shape
    rcases he : u.path.data with _ | ⟨c, cs⟩
    · rw [he] at hs
      simp at hs
    · rw [he] at hs
      simp only [List.head?_cons, Option.some.injEq] at hs
      exact ⟨cs, by rw [hs]⟩
  rw [toStr_noFrag_eq]
  have hTclean : ∀ c ∈ baseChars u ++ queryChars u ++ ftChars ft, wsLike c = false := by
    intro c hc
    rcases List.mem_append.1 hc with h1 | h1
    · rcases List.mem_append.1 h1 with h2 | h2
      · exact (baseChars_facts h c h2).1
      · exact (queryChars_facts u c h2).1
    · cases ft with
      | none => simp [ftChars] at h1
      | some g =>
        rcases List.mem_cons.1 (by simpa [ftChars] using h1) with rfl | h2
        · decide
        · exact hft g rfl c h2
  have hnhb : '#' ∉ baseChars u ++ queryChars u := by
    intro hc
    rcases List.mem_append.1 hc with h1 | h1
    · exact (baseChars_facts h '#' h1).2.2 rfl
    · exact (queryChars_facts u '#' h1).2 rfl
  have hnqb : '?' ∉ baseChars u := fun hc => (baseChars_facts h '?' hc).2.1 rfl
  have hsharp : splitFirst '#' (baseChars u ++ queryChars u ++ ftChars ft) =
      (baseChars u ++ queryChars u, ft) := by
    cases ft with
    | none => simpa [ftChars] using splitFirst_of_not_mem hnhb
    | some g => simpa [ftChars] using splitFirst_append hnhb
  have hsharp1 : (splitFirst '#' (baseChars u ++ queryChars u ++ ftChars ft)).1 =
      baseChars u ++ queryChars u := by rw [hsharp]
  have hsharp2 : (splitFirst '#' (baseChars u ++ queryChars u ++ ftChars ft)).2 = ft := by
    rw [hsharp]
  obtain ⟨qopt, hq1, hq2⟩ : ∃ qopt,
      splitFirst '?' (baseChars u ++ queryChars u) = (baseChars u, qopt) ∧
      parseForm (qopt.getD []) = u.query := by
    cases hu : u.query with
    | nil =>
      refine ⟨none, ?_, rfl⟩
      have : queryChars u = [] := by simp [queryChars, hu]
      rw [this, List.append_nil]
      exact splitFirst_of_not_mem hnqb
    | cons kv rest =>
      refine ⟨some (serializeFormChars (kv :: rest)), ?_, ?_⟩
      · have : queryChars u = '?' :: serializeFormChars (kv :: rest) := by
          simp [queryChars, hu]
        rw [this]
        exact splitFirst_append hnqb
      · simpa using parseForm_serializeForm (kv :: rest)
  have hq1a : (splitFirst '?' (baseChars u ++ queryChars u)).1 = baseChars u := by rw [hq1]
  have hq1b : (splitFirst '?' (baseChars u ++ queryChars u)).2 = qopt := by rw [hq1]
  have hnsc : ':' ∉ u.scheme.data := fun hc => (wf_scheme_facts h ':' hc).2.1 rfl
  have hcsplit : splitFirst ':' (baseChars u) =
      (u.scheme.data, some ('/' :: '/' :: (u.host.data ++ (portChars u ++ u.path.data)))) := by
    unfold baseChars
    exact splitFirst_append hnsc
  have hnslhp : '/' ∉ u.host.data ++ portChars u := by
    intro hc
    rcases List.mem_append.1 hc with h1 | h1
    · exact (h.host_good '/' h1).2.2.1 rfl
    · rcases portChars_facts u '/' h1 with ⟨_, f2, _⟩ | he
      · exact f2 rfl
      · exact absurd he (by decide)
  have hslash : splitFirst '/' (u.host.data ++ (portChars u ++ u.path.data)) =
      (u.host.data ++ portChars u, some pt) := by
    rw [hpt, ← List.append_assoc]
    exact splitFirst_append hnslhp
  have hslash1 : (splitFirst '/' (u.host.data ++ (portChars u ++ u.path.data))).1 =
      u.host.data ++ portChars u := by rw [hslash]
  have hslash2 : (splitFirst '/' (u.host.data ++ (portChars u ++ u.path.data))).2 = some pt := by
    rw [hslash]
  simp only [parseChars]
  rw [jsTrimChars_of_clean hTclean]
  rw [if_neg (by
    simp only [Bool.not_eq_true, List.any_eq_false]
    intro c hc
    simp [hTclean c hc])]
  rw [hsharp1, hsharp2, hq1a, hq1b, hcsplit]
  simp only [h.scheme_ok, if_true]
  rw [hslash1, hslash2, h.scheme_lower, parseHostPort_roundtrip h]
  simp only [Option.some.injEq]
  rw [hq2, ← hpt]

theorem stripTrail_of_ne {c : Char} {l : List Char} (h : l.getLast? ≠ some c) :
    stripTrail c l = l := by
  unfold stripTrail
  rw [if_neg h]

theorem stripTrail_concat_self (c : Char) (l : List Char) :
    stripTrail c (l ++ [c]) = l := by
  unfold stripTrail
  rw [List.getLast?_concat, if_pos rfl, List.dropLast_concat]

theorem getLast?_cons_of_ne_nil {x : Char} {l : List Char} (h : l ≠ []) :
    (x :: l).getLast? = l.getLast? := by
  have h1 : x :: l = [x] ++ l := rfl
  rw [h1, List.getLast?_append_of_ne_nil _ h]

theorem serializeFormChars_ne_nil {q : List (String × String)} (h : q ≠ []) :
    serializeFormChars q ≠ [] := by
  cases q with
  | nil => exact absurd rfl h
  | cons kv rest =>
    cases rest with
    | nil =>
      unfold serializeFormChars serializePairChars
      intro he
      rcases List.append_eq_nil.1 he with ⟨_, h2⟩
      exact List.cons_ne_nil _ _ h2
    | cons kv2 rest2 =>
      unfold serializeFormChars serializePairChars
      intro he
      rcases List.append_eq_nil.1 he with ⟨h1, _⟩
      rcases List.append_eq_nil.1 h1 with ⟨_, h2⟩
      exact List.cons_ne_nil _ _ h2

theorem b2_getLast {u : URLValue} (h : WfURL u) {c : Char}
    (hc : (baseChars u ++ queryChars u).getLast? = some c) : c ≠ '?' ∧ c ≠ '#' := by
  cases hq : u.query with
  | nil =>
    have hqc : queryChars u = [] := by simp [queryChars, hq]
    rw [hqc, List.append_nil] at hc
    obtain ⟨pt, hpt⟩ : ∃ pt, u.path.data = '/' :: pt := by
      have hs := h.path_shape
      rcases he : u.path.data with _ | ⟨d, cs⟩
      · rw [he] at hs
        simp at hs
      · rw [he] at hs
        simp only [List.head?_cons, Option.some.injEq] at hs
        exact ⟨cs, by rw [hs]⟩
    have hpne : u.path.data ≠ [] := by
      rw [hpt]
      exact List.cons_ne_nil _ _
    unfold baseChars at hc
    rw [List.getLast?_append_of_ne_nil _ (List.cons_ne_nil _ _)] at hc
    rw [getLast?_cons_of_ne_nil (by simp [hpne]), getLast?_cons_of_ne_nil (by simp [hpne]),
      getLast?_cons_of_ne_nil (by simp [hpne]),
      List.getLast?_append_of_ne_nil _ (by simp [hpne]),
      List.getLast?_append_of_ne_nil _ hpne] at hc
    have := List.mem_of_getLast?_eq_some hc
    exact ⟨(h.path_good c this).2.1, (h.path_good c this).2.2⟩
  | cons kv rest =>
    have hser : serializeFormChars (kv :: rest) ≠ [] :=
      serializeFormChars_ne_nil (List.cons_ne_nil _ _)
    have hqc : queryChars u = '?' :: serializeFormChars (kv :: rest) := by
      simp [queryChars, hq]
    rw [hqc, List.getLast?_append_of_ne_nil _ (List.cons_ne_nil _ _),
      getLast?_cons_of_ne_nil hser] at hc
    have := List.mem_of_getLast?_eq_some hc
    obtain ⟨_, f2, f3⟩ := serializeFormChars_good _ c this
    exact ⟨ne_char_of_toNat rfl f3, ne_char_of_toNat rfl f2⟩

theorem parse_outString {u : URLValue} (h : WfURL u) :
    parseChars (outStringChars u) = some (fragNorm u) := by
  have hchunks : toStrChars u =
      baseChars u ++ queryChars u ++ ftChars (u.fragment.map String.data) := by
    rw [toStr_eq_chunks]
    cases u.fragment <;> simp [ftChars]
  have hB2q : (baseChars u ++ queryChars u).getLast? ≠ some '?' := by
    intro he
    exact (b2_getLast h he).1 rfl
  have hB2h : (baseChars u ++ queryChars u).getLast? ≠ some '#' := by
    intro he
    exact (b2_getLast h he).2 rfl
  have hpsnone : parseChars (baseChars u ++ queryChars u) =
      some { u with fragment := none } := by
    have hps := parse_serialized u h none (by simp)
    rw [toStr_noFrag_eq, show ftChars none = [] from rfl, List.append_nil] at hps
    simpa using hps
  unfold outStringChars
  rw [hchunks]
  cases hf : u.fragment with
  | none =>
    simp only [Option.map_none']
    rw [show ftChars none = [] from rfl, List.append_nil]
    rw [stripTrail_of_ne hB2q, stripTrail_of_ne hB2h, hpsnone]
    unfold fragNorm
    rw [hf]
    rfl
  | some f =>
    simp only [Option.map_some']
    rw [show ftChars (some f.data) = '#' :: f.data from rfl]
    have hclean : ∀ c ∈ f.data, wsLike c = false :=
      h.frag_good f (by rw [hf]; rfl)
    have hparse : ∀ g : List Char, (∀ c ∈ g, c ∈ f.data) →
        parseChars (baseChars u ++ queryChars u ++ '#' :: g) =
          some { u with fragment := some (⟨g⟩ : String) } := by
      intro g hsub
      have hps := parse_serialized u h (some g) (by
        intro g2 hg2 c hc
        simp only [Option.mem_def, Option.some.injEq] at hg2
        subst hg2
        exact hclean c (hsub c hc))
      rw [toStr_noFrag_eq, show ftChars (some g) = '#' :: g from rfl] at hps
      simpa using hps
    unfold fragNorm
    rw [hf]
    rcases hg : f.data.getLast? with _ | c
    · have hgnil : f.data = [] := List.getLast?_eq_none_iff.1 hg
      rw [hgnil, show ('#' :: ([] : List Char)) = ['#'] from rfl]
      have hs1 : stripTrail '?' (baseChars u ++ queryChars u ++ ['#']) =
          baseChars u ++ queryChars u ++ ['#'] :=
        stripTrail_of_ne (by rw [List.getLast?_concat]; simp)
      have hs2 : stripTrail '#' (baseChars u ++ queryChars u ++ ['#']) =
          baseChars u ++ queryChars u := stripTrail_concat_self _ _
      rw [hs1, hs2, hpsnone]
      have hfn : fragNormF (some f) = none := by
        simp [fragNormF, hgnil]
      rw [hfn]
    · obtain ⟨g0, hshape⟩ := List.getLast?_eq_some_iff.1 hg
      have hsub0 : ∀ d ∈ g0, d ∈ f.data := by
        intro d hd
        rw [hshape]
        exact List.mem_append_left _ hd
      by_cases hcq : c = '?'
      · subst hcq
        rw [hshape, show ('#' :: (g0 ++ ['?'])) = ('#' :: g0) ++ ['?'] from rfl,
          ← List.append_assoc]
        have hs1 : stripTrail '?' ((baseChars u ++ queryChars u ++ '#' :: g0) ++ ['?']) =
            baseChars u ++ queryChars u ++ '#' :: g0 := stripTrail_concat_self _ _
        rw [hs1]
        rcases hg0 : g0.getLast? with _ | d
        · have hg0nil : g0 = [] := List.getLast?_eq_none_iff.1 hg0
          rw [hg0nil, show ('#' :: ([] : List Char)) = ['#'] from rfl]
          have hs2 : stripTrail '#' (baseChars u ++ queryChars u ++ ['#']) =
              baseChars u ++ queryChars u := stripTrail_concat_self _ _
          rw [hs2, hpsnone]
          have hfn : fragNormF (some f) = none := by
            simp [fragNormF, hshape, hg0nil]
          rw [hfn]
        · by_cases hd : d = '#'
          · subst hd
            obtain ⟨g1, hshape1⟩ := List.getLast?_eq_some_iff.1 hg0
            rw [hshape1, show ('#' :: (g1 ++ ['#'])) = ('#' :: g1) ++ ['#'] from rfl,
              ← List.append_assoc]
            have hs2 : stripTrail '#' ((baseChars u ++ queryChars u ++ '#' :: g1) ++ ['#']) =
                baseChars u ++ queryChars u ++ '#' :: g1 := stripTrail_concat_self _ _
            rw [hs2]
            rw [hparse g1 (fun e he2 =>
              hsub0 e (by rw [hshape1]; exact List.mem_append_left _ he2))]
            have hfn : fragNormF (some f) = some (⟨g1⟩ : String) := by
              simp [fragNormF, hshape, hshape1]
            rw [hfn]
          · have hg0ne : g0 ≠ [] := by
              intro he
              rw [he] at hg0
              simp at hg0
            have hs2 : stripTrail '#' (baseChars u ++ queryChars u ++ '#' :: g0) =
                baseChars u ++ queryChars u ++ '#' :: g0 := by
              refine stripTrail_of_ne ?_
              rw [List.getLast?_append_of_ne_nil _ (List.cons_ne_nil '#' g0),
                getLast?_cons_of_ne_nil hg0ne, hg0]
              intro he
              exact hd (Option.some.inj he)
            rw [hs2, hparse g0 hsub0]
            have hfn : fragNormF (some f) = some (⟨g0⟩ : String) := by
              simp [fragNormF, hshape, hg0ne, hg0, hd]
            rw [hfn]
      · have hfne : f.data ≠ [] := by
          rw [hshape]
          simp
        have hlastT : (baseChars u ++ queryChars u ++ '#' :: f.data).getLast? = some c := by
          rw [List.getLast?_append_of_ne_nil _ (List.cons_ne_nil '#' f.data),
            getLast?_cons_of_ne_nil hfne, hg]
        have hs1 : stripTrail '?' (baseChars u ++ queryChars u ++ '#' :: f.data) =
            baseChars u ++ queryChars u ++ '#' :: f.data := by
          refine stripTrail_of_ne ?_
          rw [hlastT]
          intro he
          exact hcq (Option.some.inj he)
        rw [hs1]
        by_cases hch : c = '#'
        · subst hch
          rw [hshape, show ('#' :: (g0 ++ ['#'])) = ('#' :: g0) ++ ['#'] from rfl,
            ← List.append_assoc]
          have hs2 : stripTrail '#' ((baseChars u ++ queryChars u ++ '#' :: g0) ++ ['#']) =
              baseChars u ++ queryChars u ++ '#' :: g0 := stripTrail_concat_self _ _
          rw [hs2, hparse g0 hsub0]
          have hfn : fragNormF (some f) = some (⟨g0⟩ : String) := by
            simp [fragNormF, hshape, hcq]
          rw [hfn]
        · have hs2 : stripTrail '#' (baseChars u ++ queryChars u ++ '#' :: f.data) =
              baseChars u ++ queryChars u ++ '#' :: f.data := by
            refine stripTrail_of_ne ?_
            rw [hlastT]
            intro he
            exact hch (Option.some.inj he)
          rw [hs2, hparse f.data (fun d hd2 => hd2)]
          have hfn : fragNormF (some f) = some (⟨f.data⟩ : String) := by
            simp [fragNormF, hfne, hcq, hg, hch]
          rw [hfn]

theorem removeLoop_eq (cond : String → Bool) (ks : List String)
    (q : List (String × String)) (c : Bool) :
    removeLoop cond ks (q, c) =
      (q.filter (fun kv => !(cond kv.1 && ks.contains kv.1)), c || ks.any cond) := by
  induction ks generalizing q c with
  | nil => simp [removeLoop]
  | cons k ks ih =>
    simp only [removeLoop]
    by_cases hk : cond k
    · rw [if_pos hk, ih]
      congr 1
      · rw [List.filter_filter]
        apply List.filter_congr
        intro kv hkv
        by_cases he : kv.1 = k
        · simp [he, hk]
        · simp [he]
      · simp [hk]
    · rw [if_neg hk, ih]
      congr 1
      · apply List.filter_congr
        intro kv hkv
        by_cases he : kv.1 = k
        · simp [he, hk]
        · simp [he]
      · simp [hk]

theorem removeLoop_snapshot (cond : String → Bool) (q : List (String × String)) (c : Bool) :
    removeLoop cond (q.map (·.1)) (q, c) =
      (q.filter (fun kv => !cond kv.1), c || q.any (fun kv => cond kv.1)) := by
  rw [removeLoop_eq]
  congr 1
  · apply List.filter_congr
    intro kv hkv
    have hm : (q.map (·.1)).contains kv.1 = true := by
      clear c
      induction q with
      | nil => simp at hkv
      | cons kv2 rest ih =>
        rcases List.mem_cons.1 hkv with rfl | h2
        · simp
        · simp only [List.map_cons, List.contains_cons]
          rw [ih h2]
          simp
    rw [hm]
    simp
  · have hany : (List.map (fun x => x.1) q).any cond = q.any fun kv => cond kv.1 := by
      induction q with
      | nil => rfl
      | cons kv rest ih => simp only [List.map_cons, List.any_cons, ih]
    rw [hany]

theorem wf_update {u : URLValue} (h : WfURL u) (q2 : List (String × String))
    (fr2 : Option String) (hfr : ∀ f ∈ fr2, ∀ c ∈ f.data, wsLike c = false) :
    WfURL { u with query := q2, fragment := fr2 } :=
  ⟨h.scheme_ok, h.scheme_lower, h.host_ne, h.host_good, h.host_lower, h.port_lt,
    h.port_nondefault, h.path_shape, h.path_good, hfr⟩

theorem serializeFormChars_clean (l : List (String × String)) :
    ∀ c ∈ serializeFormChars l, wsLike c = false :=
  fun c hc => (wsLike_false_iff c).2 (serializeFormChars_good l c hc).1

theorem cleanFragment_clean {opts : StripOpts} {fr : Option String}
    (h0 : ∀ f ∈ fr, ∀ c ∈ f.data, wsLike c = false) :
    ∀ f ∈ (cleanFragment opts fr).1, ∀ c ∈ f.data, wsLike c = false := by
  cases fr with
  | none => simp [cleanFragment]
  | some f =>
    simp only [cleanFragment]
    split
    · split
      · split
        · simp
        · intro f2 hf2 c hc
          simp only [Option.mem_def, Option.some.injEq] at hf2
          subst hf2
          exact serializeFormChars_clean _ c hc
      · intro f2 hf2 c hc
        simp only [Option.mem_def, Option.some.injEq] at hf2
        subst hf2
        exact h0 f rfl c hc
    · intro f2 hf2 c hc
      simp only [Option.mem_def, Option.some.injEq] at hf2
      subst hf2
      exact h0 f rfl c hc

theorem outStringChars_clean {u : URLValue} (h : WfURL u) :
    ∀ c ∈ outStringChars u, wsLike c = false := by
  intro c hc
  have hsub : c ∈ toStrChars u := by
    unfold outStringChars stripTrail at hc
    split at hc
    · split at hc
      · exact List.dropLast_subset _ (List.dropLast_subset _ hc)
      · exact List.dropLast_subset _ hc
    · split at hc
      · exact List.dropLast_subset _ hc
      · exact hc
  rw [toStr_eq_chunks] at hsub
  rcases List.mem_append.1 hsub with h1 | h1
  · rcases List.mem_append.1 h1 with h2 | h2
    · exact (baseChars_facts h c h2).1
    · exact (queryChars_facts u c h2).1
  · cases hf : u.fragment with
    | none =>
      rw [hf] at h1
      simp at h1
    | some f =>
      rw [hf] at h1
      rcases List.mem_cons.1 h1 with rfl | h2
      · decide
      · exact h.frag_good f (by rw [hf]; rfl) c h2

theorem jsTrim_eq_self_of_clean {s : String} (h : ∀ c ∈ s.data, wsLike c = false) :
    jsTrim s = s := by
  unfold jsTrim
  rw [jsTrimChars_of_clean h]

theorem find?_filter_key (cond : String → Bool) (q : List (String × String)) (k : String) :
    (q.filter fun kv => !cond kv.1).find? (fun kv => kv.1 = k) = none ∨
    (q.filter fun kv => !cond kv.1).find? (fun kv => kv.1 = k) =
      q.find? (fun kv => kv.1 = k) := by
  induction q with
  | nil => left; rfl
  | cons kv rest ih =>
    by_cases hck : cond kv.1 = true
    · rw [List.filter_cons_of_neg (by simp [hck])]
      by_cases hk : kv.1 = k
      · left
        rw [List.find?_eq_none]
        intro x hx
        rcases List.mem_filter.1 hx with ⟨_, hx2⟩
        simp only [decide_eq_true_eq]
        intro he
        rw [he, ← hk] at hx2
        simp [hck] at hx2
      · rcases ih with h | h
        · left
          exact h
        · right
          rw [h, List.find?_cons_of_neg _ (by simp [hk])]
    · rw [List.filter_cons_of_pos (by simp [hck])]
      by_cases hk : kv.1 = k
      · right
        rw [List.find?_cons_of_pos _ (by simp [hk]), List.find?_cons_of_pos _ (by simp [hk])]
      · rcases ih with h | h
        · left
          rw [List.find?_cons_of_neg _ (by simp [hk]), h]
        · right
          rw [List.find?_cons_of_neg _ (by simp [hk]), h,
            List.find?_cons_of_neg _ (by simp [hk])]

theorem getParam_filter_cases (u : URLValue) (cond : String → Bool) (k : String) :
    getParam { u with query := u.query.filter fun kv => !cond kv.1 } k = none ∨
    getParam { u with query := u.query.filter fun kv => !cond kv.1 } k = getParam u k := by
  unfold getParam
  rcases find?_filter_key cond u.query k with h | h
  · left
    simp [h]
  · right
    simp [h]

theorem truthyS_mono {a b : Option String} (hab : a = none ∨ a = b)
    (h : truthyS b = false) : truthyS a = false := by
  rcases hab with rfl | rfl
  · rfl
  · exact h

theorem keys_filter_contains {cond : String → Bool} (q : List (String × String))
    {k : String} (hc : cond k = false) :
    ((q.filter fun kv => !cond kv.1).map (·.1)).contains k = (q.map (·.1)).contains k := by
  induction q with
  | nil => rfl
  | cons kv rest ih =>
    by_cases hk : kv.1 = k
    · rw [List.filter_cons_of_pos (by simp [hk, hc])]
      simp [hk, ih]
    · by_cases hck : cond kv.1 = true
      · rw [List.filter_cons_of_neg (by simp [hck])]
        rw [ih]
        simp only [List.map_cons, List.contains_cons]
        have : (k == kv.1) = false := by
          simp only [beq_eq_false_iff_ne, ne_eq]
          exact fun he => hk he.symm
        rw [this]
        simp
      · rw [List.filter_cons_of_pos (by simp [hck])]
        simp only [List.map_cons, List.contains_cons, ih]

theorem unwrap_eq_self {s : String} {u : URLValue} (hp : parseURL s = some u)
    (h1 : ((jsEndsWith u.host "google.com" || jsEndsWith u.host "google.com.au") &&
        decide (u.path = "/url")) = false ∨
      firstTruthy (getParam u "url") (getParam u "q") = none)
    (h2 : ((decide (u.host = "l.facebook.com") || decide (u.path = "/l.php")) &&
        truthyS (getParam u "u")) = false)
    (h3 : (jsEndsWith u.host "instagram.com" && truthyS (getParam u "u")) = false) :
    unwrapKnownRedirectors s = (s, none) := by
  unfold unwrapKnownRedirectors unwrapFB
  rw [hp]
  dsimp only
  rcases h1 with h1 | h1
  · rw [if_neg (by simp_all), if_neg (by simp_all), if_neg (by simp_all)]
  · rw [h1]
    by_cases hg : ((jsEndsWith u.host "google.com" || jsEndsWith u.host "google.com.au") &&
        decide (u.path = "/url")) = true
    · rw [if_pos hg, if_neg (by simp_all), if_neg (by simp_all)]
    · rw [if_neg hg, if_neg (by simp_all), if_neg (by simp_all)]

theorem unwrap_none_inv {s : String} {u : URLValue} (hp : parseURL s = some u)
    (h : (unwrapKnownRedirectors s).2 = none) :
    (unwrapKnownRedirectors s).1 = s ∧
    (((jsEndsWith u.host "google.com" || jsEndsWith u.host "google.com.au") &&
        decide (u.path = "/url")) = false ∨
      firstTruthy (getParam u "url") (getParam u "q") = none) ∧
    ((decide (u.host = "l.facebook.com") || decide (u.path = "/l.php")) &&
        truthyS (getParam u "u")) = false ∧
    (jsEndsWith u.host "instagram.com" && truthyS (getParam u "u")) = false := by
  unfold unwrapKnownRedirectors unwrapFB at h ⊢
  rw [hp] at h ⊢
  dsimp only at h ⊢
  by_cases hg : ((jsEndsWith u.host "google.com" || jsEndsWith u.host "google.com.au") &&
      decide (u.path = "/url")) = true
  · rw [if_pos hg] at h ⊢
    rcases hft : firstTruthy (getParam u "url") (getParam u "q") with _ | c
    · rw [hft] at h
      dsimp only at h ⊢
      by_cases hfb : ((decide (u.host = "l.facebook.com") || decide (u.path = "/l.php")) &&
          truthyS (getParam u "u")) = true
      · rw [if_pos hfb] at h
        exact absurd h (by simp)
      · rw [if_neg hfb] at h ⊢
        by_cases hig : (jsEndsWith u.host "instagram.com" && truthyS (getParam u "u")) = true
        · rw [if_pos hig] at h
          exact absurd h (by simp)
        · rw [if_neg hig]
          exact ⟨rfl, Or.inr rfl, by simp_all, by simp_all⟩
    · rw [hft] at h
      exact absurd h (by simp)
  · rw [if_neg hg] at h ⊢
    by_cases hfb : ((decide (u.host = "l.facebook.com") || decide (u.path = "/l.php")) &&
        truthyS (getParam u "u")) = true
    · rw [if_pos hfb] at h
      exact absurd h (by simp)
    · rw [if_neg hfb] at h ⊢
      by_cases hig : (jsEndsWith u.host "instagram.com" && truthyS (getParam u "u")) = true
      · rw [if_pos hig] at h
        exact absurd h (by simp)
      · rw [if_neg hig]
        exact ⟨rfl, Or.inl (by simp_all), by simp_all, by simp_all⟩

/-- Claim C7: for every input URL string, `applyClearUrls` with a null
ruleset and with an empty-object ruleset (no `providers` mapping) both
return the rules-unavailable error kind with the original input string and
`changed = false`. -/
theorem rules_unavailable_result (rx rxg : String → Option JSRegex) (s : String) (a : Bool) :
    applyClearUrls rx rxg s none a =
      { url := s, changed := false, error := some "Rules not available" } ∧
    applyClearUrls rx rxg s (some ⟨none⟩) a =
      { url := s, changed := false, error := some "Rules not available" } :=
  ⟨rfl, rfl⟩

/-- Claim C10: on the valid input `https://example.com/page?` (lone trailing
`?`), both cleaners report `changed = false` while returning a URL string
different from the input: the changed flag tracks only unwrapping and
parameter removal, not parse/serialize canonicalization. -/
theorem canonicalization_without_change :
    stripTracking "https://example.com/page?" {} =
      { url := "https://example.com/page", changed := false,
        unwrappedFrom := none, error := none } ∧
    applyClearUrls (fun _ => none) (fun _ => none) "https://example.com/page?"
        (some ⟨some []⟩) false =
      { url := "https://example.com/page", changed := false, error := none } ∧
    ("https://example.com/page" : String) ≠ "https://example.com/page?" := by
  refine ⟨by decide, by decide, by decide⟩

/-- Claim C2, counterexample: the input parses as an absolute URL, the
Google redirector matches with target `notaurl`, yet `stripTracking`
returns the `Invalid URL` error — it does not fall back to the original
parsed URL. -/
theorem strip_bad_target_cx :
    parseURL (jsTrim "https://www.google.com/url?q=notaurl") ≠ none ∧
    stripTracking "https://www.google.com/url?q=notaurl" {} =
      { url := "https://www.google.com/url?q=notaurl", changed := false,
        unwrappedFrom := none, error := some "Invalid URL" } := by
  refine ⟨by decide, by decide⟩

/-- Claim C2, amended: whenever the working string produced by the
redirector unwrap fails to parse (in particular when a matched redirector
extracted an unparseable target from a parseable input), `stripTracking`
returns the original input with `changed = false` and the `Invalid URL`
error; there is no fallback to the original parsed URL. -/
theorem strip_bad_target_invalid (s : String) (opts : StripOpts)
    (hbad : parseURL (unwrapKnownRedirectors (jsTrim s)).1 = none) :
    stripTracking s opts =
      { url := s, changed := false, unwrappedFrom := none, error := some "Invalid URL" } := by
  simp only [stripTracking]
  rw [hbad]

/-- Witness for the amended C2 theorem at a concrete input whose redirector
target does not parse. -/
theorem strip_bad_target_invalid_witness :
    parseURL (unwrapKnownRedirectors (jsTrim "https://www.google.com/url?q=notaurl")).1 = none ∧
    stripTracking "https://www.google.com/url?q=notaurl" {} =
      { url := "https://www.google.com/url?q=notaurl", changed := false,
        unwrappedFrom := none, error := some "Invalid URL" } :=
  ⟨by decide, strip_bad_target_invalid "https://www.google.com/url?q=notaurl" {} (by decide)⟩

/-- Claim C8, counterexample: the Facebook redirector rule fires on a URL
whose host is `evil.example` (neither equal to `l.facebook.com` nor ending
in `facebook.com`) solely because its path is `/l.php` — the rule requires
the host condition OR the path condition, not both. -/
theorem facebook_rule_host_or_path_cx :
    (unwrapKnownRedirectors "https://evil.example/l.php?u=https%3A%2F%2Ftarget.example%2F").2 =
      some "facebook" ∧
    (parseURL "https://evil.example/l.php?u=https%3A%2F%2Ftarget.example%2F").map
      URLValue.host = some "evil.example" ∧
    ("evil.example" : String) ≠ "l.facebook.com" ∧
    jsEndsWith "evil.example" "facebook.com" = false := by
  refine ⟨by decide, by decide, by decide, by decide⟩

/-- Truthiness of the `a || b` candidate expression coincides with it
producing a value. -/
theorem truthyS_firstTruthy (a b : Option String) :
    truthyS (firstTruthy a b) = (firstTruthy a b).isSome := by
  unfold firstTruthy
  by_cases ha : truthyS a = true
  · rw [if_pos ha]
    cases a with
    | none => simp [truthyS] at ha
    | some t => rw [ha]; rfl
  · rw [if_neg ha]
    by_cases hb : truthyS b = true
    · rw [if_pos hb]
      cases b with
      | none => simp [truthyS] at hb
      | some t => rw [hb]; rfl
    · rw [if_neg hb]
      rfl

/-- Claim C8, amended: `unwrapKnownRedirectors` is exactly the first-match
interpretation of the ordered built-in rule list Google → Facebook →
Instagram, where Google requires a `google.com`/`google.com.au` host
suffix AND path `/url` AND a truthy `url`-or-`q` parameter, Facebook
requires host `l.facebook.com` OR path `/l.php`, AND a truthy `u`
parameter, and Instagram requires an `instagram.com` host suffix AND a
truthy `u` parameter; the first matching rule's target parameter value
becomes the new raw URL and its provider id is recorded. -/
theorem unwrap_eq_firstRedirector (s : String) :
    unwrapKnownRedirectors s =
      match parseURL s with
      | none => (s, none)
      | some u =>
        match firstRedirector u builtinRedirectors with
        | some cf => (cf.1, some cf.2)
        | none => (s, none) := by
  unfold unwrapKnownRedirectors unwrapFB
  cases hp : parseURL s with
  | none => rfl
  | some u =>
    dsimp only
    simp only [builtinRedirectors, firstRedirector]
    have hfbig :
        (if ((decide (u.host = "l.facebook.com") || decide (u.path = "/l.php")) &&
              truthyS (getParam u "u")) = true then
            ((getParam u "u").getD "", some "facebook")
          else
            if (jsEndsWith u.host "instagram.com" && truthyS (getParam u "u")) = true then
              ((getParam u "u").getD "", some "instagram")
            else (s, none)) =
        (match
            (if ((decide (u.host = "l.facebook.com") || decide (u.path = "/l.php")) &&
                truthyS (getParam u "u")) = true then
              (getParam u "u").map (fun x => (x, "facebook"))
            else
              if (jsEndsWith u.host "instagram.com" && truthyS (getParam u "u")) = true then
                (getParam u "u").map (fun x => (x, "instagram"))
              else none) with
          | some cf => (cf.1, some cf.2)
          | none => (s, none)) := by
      by_cases hfb : ((decide (u.host = "l.facebook.com") || decide (u.path = "/l.php")) &&
          truthyS (getParam u "u")) = true
      · rcases hgp : getParam u "u" with _ | t
        · rw [hgp] at hfb
          simp [truthyS] at hfb
        · rw [hgp] at hfb
          rw [if_pos hfb, if_pos hfb]
          rfl
      · by_cases hig : (jsEndsWith u.host "instagram.com" && truthyS (getParam u "u")) = true
        · rcases hgp : getParam u "u" with _ | t
          · rw [hgp] at hig
            simp [truthyS] at hig
          · rw [hgp] at hfb hig
            rw [if_neg hfb, if_neg hfb, if_pos hig, if_pos hig]
            rfl
        · rw [if_neg hfb, if_neg hfb, if_neg hig, if_neg hig]
    rcases hft : firstTruthy (getParam u "url") (getParam u "q") with _ | c
    · by_cases hg : ((jsEndsWith u.host "google.com" || jsEndsWith u.host "google.com.au") &&
          decide (u.path = "/url")) = true
      · rw [if_pos hg]
        dsimp only
        simp only [truthyS, Bool.and_false, Bool.false_eq_true, if_false]
        exact hfbig
      · rw [if_neg hg]
        simp only [Bool.not_eq_true] at hg
        simp only [hg, Bool.false_and, Bool.false_eq_true, if_false]
        exact hfbig
    · have htc : truthyS (some c) = true := by
        rw [← hft, truthyS_firstTruthy, hft]
        rfl
      by_cases hg : ((jsEndsWith u.host "google.com" || jsEndsWith u.host "google.com.au") &&
          decide (u.path = "/url")) = true
      · rw [if_pos hg]
        dsimp only
        simp [hg, htc]
      · rw [if_neg hg]
        simp only [Bool.not_eq_true] at hg
        simp only [hg, Bool.false_and, Bool.false_eq_true, if_false]
        exact hfbig

/-- One redirection step in terms of its extracted target. -/
theorem redirStep_eq (rx : String → Option JSRegex) (urlStr r : String)
    (st : URLValue × Bool) :
    redirStep rx urlStr r st =
      match redirTarget rx urlStr r with
      | none => st
      | some u2 => (u2, true) := by
  unfold redirStep redirTarget
  cases hr : rx r with
  | none => rfl
  | some re =>
    dsimp only
    cases he : re.exec1 urlStr with
    | none => rfl
    | some t =>
      dsimp only
      by_cases ht : t.isEmpty = true
      · rw [if_pos ht, if_pos ht]
      · rw [if_neg ht, if_neg ht]

/-- Folding the redirection list: the working URL ends at the last valid
target, and the flag records whether any target existed. -/
theorem redirFold_eq (rx : String → Option JSRegex) (urlStr : String)
    (rs : List String) (u : URLValue) (c : Bool) :
    redirFold rx urlStr rs (u, c) =
      (((rs.filterMap (redirTarget rx urlStr)).getLast?).getD u,
       c || !(rs.filterMap (redirTarget rx urlStr)).isEmpty) := by
  induction rs generalizing u c with
  | nil => simp [redirFold]
  | cons r rs ih =>
    rw [redirFold, redirStep_eq]
    cases hrt : redirTarget rx urlStr r with
    | none =>
      dsimp only
      rw [ih]
      simp [List.filterMap_cons, hrt]
    | some u2 =>
      dsimp only
      rw [ih]
      simp [List.filterMap_cons, hrt, List.getLast?_cons, List.getLastD_eq_getLast?]

/-- `getD` through an appended last element. -/
theorem getLast_getD_append {α : Type} (l1 l2 : List α) (u : α) :
    ((l1 ++ l2).getLast?).getD u = (l2.getLast?).getD ((l1.getLast?).getD u) := by
  cases h : l2 with
  | nil => simp
  | cons a t =>
    rw [List.getLast?_append_of_ne_nil l1 (by simp [h])]
    cases hgl : (a :: t).getLast? with
    | none => exact absurd hgl (by simp)
    | some x => rfl

/-- Emptiness of an appended list, negated. -/
theorem not_isEmpty_append {α : Type} (l1 l2 : List α) :
    (!(l1 ++ l2).isEmpty) = (!l1.isEmpty || !l2.isEmpty) := by
  cases l1 <;> cases l2 <;> rfl

/-- One provider of the redirection pass in terms of its target list. -/
theorem pass1Provider_eq (rx : String → Option JSRegex) (urlStr : String)
    (p : Provider) (u : URLValue) (c : Bool) :
    pass1Provider rx urlStr p (u, c) =
      ((providerTargets rx urlStr p).getLast?.getD u,
       c || !(providerTargets rx urlStr p).isEmpty) := by
  unfold pass1Provider providerTargets
  by_cases h : providerActive rx urlStr p = true
  · rw [if_pos h, if_pos h, redirFold_eq]
  · rw [if_neg h, if_neg h]
    simp

/-- Claim C1, amended: in the redirection pass every regex test — the
providers' `urlPattern`/`exceptions` gates and the redirection extractions —
uses the string of the URL as parsed on entry to the pass (`urlStr`,
computed once), never the updated working URL; the pass is a single forward
sweep whose final working URL is the last valid redirection target
extracted from that entry string, and the changed flag is set exactly when
at least one redirection produced a valid target. -/
theorem redirection_pass_entry_string (rx : String → Option JSRegex)
    (urlStr : String) (ps : List Provider) (u : URLValue) (c : Bool) :
    clearPass1 rx urlStr ps (u, c) =
      ((pass1Targets rx urlStr ps).getLast?.getD u,
       c || !(pass1Targets rx urlStr ps).isEmpty) := by
  induction ps generalizing u c with
  | nil => simp [clearPass1, pass1Targets]
  | cons p ps ih =>
    rw [clearPass1, pass1Provider_eq, ih]
    simp only [pass1Targets, List.map_cons, List.flatten_cons]
    rw [getLast_getD_append, not_isEmpty_append (providerTargets rx urlStr p), Bool.or_assoc]

/-- Claim C1, counterexample: with providers PA (a.example, redirecting to
b.example) and PB (matching b.example, redirecting to c.example), one sweep
on `https://a.example/` stops at `https://b.example/` — the later provider
PB is tested against the stale entry string, not against the updated
working URL, so no chaining happens — although running the engine on
`https://b.example/` itself shows the redirection of PB does fire on that
string and would have chained to `https://c.example/`. -/
theorem redirection_chain_cx :
    applyClearUrls rxC1 rxC1 "https://a.example/" (some ⟨some psC1⟩) true =
      { url := "https://b.example/", changed := true, error := none } ∧
    applyClearUrls rxC1 rxC1 "https://b.example/" (some ⟨some psC1⟩) true =
      { url := "https://c.example/", changed := true, error := none } :=
  ⟨rfl, rfl⟩

/-- The entry classifier splits a list into the case-folded plain names and
the compiled regexes, in order, dropping entries that fail to compile. -/
theorem classifyEntries_eq (rx : String → Option JSRegex) (entries : List String) :
    classifyEntries rx entries =
      ((entries.filter isPlainEntry).map lowerStr,
       (entries.filter (fun e => !isPlainEntry e)).filterMap rx) := by
  have go : ∀ (es : List String) (acc : List String × List JSRegex),
      es.foldl
        (fun acc e =>
          if isPlainEntry e then (acc.1 ++ [lowerStr e], acc.2)
          else
            match rx e with
            | some re => (acc.1, acc.2 ++ [re])
            | none => acc)
        acc =
      (acc.1 ++ (es.filter isPlainEntry).map lowerStr,
       acc.2 ++ (es.filter (fun e => !isPlainEntry e)).filterMap rx) := by
    intro es
    induction es with
    | nil => intro acc; simp
    | cons e es ih =>
      intro acc
      rw [List.foldl_cons, ih]
      by_cases hp : isPlainEntry e = true
      · simp [hp, List.filter_cons]
      · cases hre : rx e with
        | none => simp [hp, List.filter_cons, hre, List.filterMap_cons]
        | some re => simp [hp, List.filter_cons, hre, List.filterMap_cons]
  rw [classifyEntries, go]
  simp

/-- Claim C4: for an active provider (no raw rules), the parameter-removal
pass classifies every `rules`/`referralMarketing` entry with no regex
metacharacter, no `=`, and no `\b` as a case-folded literal name and
compiles every other entry as a regex (dropping failures), and the output
query keeps exactly the pairs whose case-folded key is neither in the
literal set nor matched by some compiled regex on the key alone or on the
key with `=` appended. -/
theorem param_removal_classification (rx rxg : String → Option JSRegex)
    (allowReferral : Bool) (p : Provider) (u : URLValue) (c : Bool)
    (hact : providerActive rx ⟨toStrChars u⟩ p = true)
    (hraw : p.rawRules = none) :
    (∀ entries, classifyEntries rx entries =
      ((entries.filter isPlainEntry).map lowerStr,
       (entries.filter (fun e => !isPlainEntry e)).filterMap rx)) ∧
    (pass2Provider rx rxg allowReferral p (u, c)).1.query =
      u.query.filter (fun kv =>
        !((classifyEntries rx ((p.rules.getD []) ++
              (if !allowReferral then p.referralMarketing.getD [] else []))).1.contains
            (lowerStr kv.1) ||
          (classifyEntries rx ((p.rules.getD []) ++
              (if !allowReferral then p.referralMarketing.getD [] else []))).2.any
            (fun re => re.test (lowerStr kv.1) || re.test (lowerStr kv.1 ++ "=")))) := by
  refine ⟨fun entries => classifyEntries_eq rx entries, ?_⟩
  unfold pass2Provider
  rw [if_pos hact, hraw]
  dsimp only
  rw [removeLoop_snapshot]
  rfl

/-- Witness for the parameter-removal characterization at a concrete active
provider and query. -/
theorem param_removal_classification_witness :
    providerActive rxW ⟨toStrChars uW⟩ pW = true ∧
    ((∀ entries, classifyEntries rxW entries =
      ((entries.filter isPlainEntry).map lowerStr,
       (entries.filter (fun e => !isPlainEntry e)).filterMap rxW)) ∧
    (pass2Provider rxW rxW true pW (uW, false)).1.query =
      uW.query.filter (fun kv =>
        !((classifyEntries rxW ((pW.rules.getD []) ++
              (if !true then pW.referralMarketing.getD [] else []))).1.contains
            (lowerStr kv.1) ||
          (classifyEntries rxW ((pW.rules.getD []) ++
              (if !true then pW.referralMarketing.getD [] else []))).2.any
            (fun re => re.test (lowerStr kv.1) || re.test (lowerStr kv.1 ++ "="))))) :=
  ⟨by decide, param_removal_classification rxW rxW true pW uW false (by decide) rfl⟩

/-- Claim C5: a raw-rule substitution that changes the serialized URL text
but whose result does not re-parse is discarded — the prior valid working
URL and the changed flag are kept exactly as they were, and the fold
continues with the remaining raw rules from that prior state. -/
theorem raw_rule_invalid_discarded (rxg : String → Option JSRegex)
    (r : String) (rs : List String) (st : URLValue × Bool) (re : JSRegex)
    (hre : rxg r = some re)
    (hch : re.rall ⟨toStrChars st.1⟩ ≠ ⟨toStrChars st.1⟩)
    (hbad : parseURL (re.rall ⟨toStrChars st.1⟩) = none) :
    rawFold rxg (r :: rs) st = rawFold rxg rs st := by
  rw [rawFold]
  have hstep : rawStep rxg r st = st := by
    unfold rawStep
    rw [hre]
    dsimp only
    rw [if_neg hch, hbad]
  rw [hstep]

/-- Witness for the raw-rule discard at a concrete rule producing a
non-URL. -/
theorem raw_rule_invalid_discarded_witness :
    parseURL (reBad.rall ⟨toStrChars uW⟩) = none ∧
    rawFold (fun _ => some reBad) ["R"] (uW, false) =
      rawFold (fun _ => some reBad) [] (uW, false) :=
  ⟨by decide,
   raw_rule_invalid_discarded (fun _ => some reBad) "R" [] (uW, false) reBad rfl
     (by decide) (by decide)⟩

/-- Claim C9: any query parameter of the heuristic cleaner output whose
case-folded name starts with `utm_` must have been protected by
`keepParams`; equivalently, every `/^utm_/i` parameter not in `keepParams`
is removed, even when absent from the static tracking list. -/
theorem utm_universality (s : String) (opts : StripOpts) (k : String)
    (he : (stripTracking s opts).error = none)
    (hk : k ∈ queryKeysOfUrl (stripTracking s opts).url)
    (hutm : jsStartsWith (lowerStr k) "utm_" = true) :
    (keepSetOf opts).contains (lowerStr k) = true := by
  simp only [stripTracking] at he hk
  cases hp : parseURL (unwrapKnownRedirectors (jsTrim s)).1 with
  | none =>
    rw [hp] at he
    exact absurd he (by simp)
  | some u =>
    rw [hp] at hk
    dsimp only at hk
    rw [removeLoop_snapshot] at hk
    have hwfu : WfURL u := wf_of_parseChars hp
    have hwf2 : WfURL { u with
        query := u.query.filter fun kv => !shouldRemove opts kv.1,
        fragment := (cleanFragment opts u.fragment).1 } :=
      wf_update hwfu _ _ (cleanFragment_clean hwfu.frag_good)
    have hparse : parseURL (outString { u with
        query := u.query.filter fun kv => !shouldRemove opts kv.1,
        fragment := (cleanFragment opts u.fragment).1 }) =
        some (fragNorm { u with
          query := u.query.filter fun kv => !shouldRemove opts kv.1,
          fragment := (cleanFragment opts u.fragment).1 }) :=
      parse_outString hwf2
    unfold queryKeysOfUrl at hk
    rw [hparse] at hk
    dsimp only [fragNorm] at hk
    rw [List.mem_map] at hk
    obtain ⟨kv, hmem, hfst⟩ := hk
    rw [List.mem_filter] at hmem
    have hsr : shouldRemove opts k = false := by
      have := hmem.2
      rw [hfst] at this
      simpa using this
    by_cases hkeep : (keepSetOf opts).contains (lowerStr k) = true
    · exact hkeep
    · exfalso
      unfold shouldRemove at hsr
      rw [if_neg (by simpa using hkeep), if_pos hutm] at hsr
      exact absurd hsr (by simp)

/-- Witness for utm_ universality: `utm_x` kept only because it is in
`keepParams`. -/
theorem utm_universality_witness :
    (stripTracking "https://example.com/?utm_x=1&a=2"
        { keepParams := ["utm_x"], extraBadParams := [] }).error = none ∧
    "utm_x" ∈ queryKeysOfUrl (stripTracking "https://example.com/?utm_x=1&a=2"
        { keepParams := ["utm_x"], extraBadParams := [] }).url ∧
    jsStartsWith (lowerStr "utm_x") "utm_" = true ∧
    (keepSetOf { keepParams := ["utm_x"], extraBadParams := [] }).contains
      (lowerStr "utm_x") = true :=
  ⟨by decide, by decide, by decide,
   utm_universality "https://example.com/?utm_x=1&a=2"
     { keepParams := ["utm_x"], extraBadParams := [] } "utm_x"
     (by decide) (by decide) (by decide)⟩

/-- Claim C6, counterexample: with `keepParams := ["ref"]` the Google
redirector unwrap replaces the whole URL by the target parameter, so `ref`
— present in the input query and protected by the keep list — is absent
from the output query: the keep list does not win over the unwrap step. -/
theorem keep_precedence_cx :
    stripTracking "https://www.google.com/url?ref=abc&q=https%3A%2F%2Fexample.com%2F"
        { keepParams := ["ref"] } =
      { url := "https://example.com/", changed := true,
        unwrappedFrom := some "google", error := none } ∧
    "ref" ∈ queryKeysOfUrl
      "https://www.google.com/url?ref=abc&q=https%3A%2F%2Fexample.com%2F" ∧
    "ref" ∉ queryKeysOfUrl "https://example.com/" :=
  ⟨by decide, by decide, by decide⟩

/-- Claim C6, amended: keep-list precedence holds for the heuristic
cleaner on runs where no redirector unwrap fired: a parameter name whose
case-folded form is in `keepParams` is present among the output query keys
exactly as it was present among the parsed input query keys, regardless of
blocklist, `utm_` rule, or `extraBadParams`. -/
theorem keep_precedence_no_unwrap (s : String) (opts : StripOpts) (k : String)
    (u : URLValue) (hp : parseURL (jsTrim s) = some u)
    (hkeep : (keepSetOf opts).contains (lowerStr k) = true)
    (hunw : (stripTracking s opts).unwrappedFrom = none)
    (he : (stripTracking s opts).error = none) :
    (queryKeysOfUrl (stripTracking s opts).url).contains k =
      (u.query.map (·.1)).contains k := by
  have hsr : shouldRemove opts k = false := by
    unfold shouldRemove
    rw [if_pos hkeep]
  simp only [stripTracking] at hunw he ⊢
  cases hp2 : parseURL (unwrapKnownRedirectors (jsTrim s)).1 with
  | none =>
    rw [hp2] at he
    exact absurd he (by simp)
  | some u' =>
    rw [hp2] at hunw
    dsimp only at hunw ⊢
    have huw1 := (unwrap_none_inv hp hunw).1
    rw [huw1, hp] at hp2
    have hu : u = u' := by
      simpa using hp2
    subst hu
    rw [removeLoop_snapshot]
    have hwfu : WfURL u := wf_of_parseChars hp
    have hwf2 : WfURL { u with
        query := u.query.filter fun kv => !shouldRemove opts kv.1,
        fragment := (cleanFragment opts u.fragment).1 } :=
      wf_update hwfu _ _ (cleanFragment_clean hwfu.frag_good)
    have hparse : parseURL (outString { u with
        query := u.query.filter fun kv => !shouldRemove opts kv.1,
        fragment := (cleanFragment opts u.fragment).1 }) =
        some (fragNorm { u with
          query := u.query.filter fun kv => !shouldRemove opts kv.1,
          fragment := (cleanFragment opts u.fragment).1 }) :=
      parse_outString hwf2
    unfold queryKeysOfUrl
    rw [hparse]
    dsimp only [fragNorm]
    exact keys_filter_contains u.query hsr

/-- Witness for keep-list precedence without unwrap: `ref` survives while
`utm_y` is removed. -/
theorem keep_precedence_no_unwrap_witness :
    parseURL (jsTrim "https://example.com/?ref=abc&utm_y=2") =
      some { scheme := "https", host := "example.com", port := none, path := "/",
             query := [("ref", "abc"), ("utm_y", "2")], fragment := none } ∧
    (queryKeysOfUrl (stripTracking "https://example.com/?ref=abc&utm_y=2"
        { keepParams := ["ref"], removeReferral := true }).url).contains "ref" =
      ([("ref", "abc"), ("utm_y", "2")].map (fun kv : String × String => kv.1)).contains "ref" :=
  ⟨by decide,
   keep_precedence_no_unwrap "https://example.com/?ref=abc&utm_y=2"
     { keepParams := ["ref"], removeReferral := true } "ref"
     { scheme := "https", host := "example.com", port := none, path := "/",
       query := [("ref", "abc"), ("utm_y", "2")], fragment := none }
     (by decide) (by decide) (by decide) (by decide)⟩

/-- Filtering by a key condition is idempotent. -/
theorem filter_key_idem (q : List (String × String)) (c : String → Bool) :
    ((q.filter fun kv => !c kv.1).filter fun kv => !c kv.1) =
      q.filter fun kv => !c kv.1 := by
  induction q with
  | nil => rfl
  | cons kv t ih =>
    by_cases h : c kv.1 = true
    · rw [List.filter_cons_of_neg (by simp [h])]
      exact ih
    · rw [List.filter_cons_of_pos (by simp [h]), List.filter_cons_of_pos (by simp [h]), ih]

/-- No surviving pair of a key filter satisfies the removal condition. -/
theorem filter_key_any (q : List (String × String)) (c : String → Bool) :
    ((q.filter fun kv => !c kv.1).any fun kv => c kv.1) = false := by
  induction q with
  | nil => rfl
  | cons kv t ih =>
    by_cases h : c kv.1 = true
    · rw [List.filter_cons_of_neg (by simp [h])]
      exact ih
    · rw [List.filter_cons_of_pos (by simp [h]), List.any_cons]
      simp [h, ih]

/-- Both candidates of a `none` result of `firstTruthy` are falsy. -/
theorem firstTruthy_eq_none {a b : Option String} (h : firstTruthy a b = none) :
    truthyS a = false ∧ truthyS b = false := by
  unfold firstTruthy at h
  by_cases ha : truthyS a = true
  · rw [if_pos ha] at h
    rw [h] at ha
    exact absurd ha (by simp [truthyS])
  · by_cases hb : truthyS b = true
    · rw [if_neg ha, if_pos hb] at h
      rw [h] at hb
      exact absurd hb (by simp [truthyS])
    · exact ⟨by simpa using ha, by simpa using hb⟩

/-- A nonempty pair list serializes with at least one `=`. -/
theorem eq_mem_serializeForm {q : List (String × String)} (h : q ≠ []) :
    '=' ∈ serializeFormChars q := by
  cases q with
  | nil => exact absurd rfl h
  | cons kv rest =>
    cases rest with
    | nil =>
      unfold serializeFormChars serializePairChars
      exact List.mem_append_right _ (List.mem_cons_self _ _)
    | cons kv2 rest2 =>
      unfold serializeFormChars
      exact List.mem_append_left _
        (List.mem_append_right _ (List.mem_cons_self _ _))

/-- A leading-character drop is the identity on a list free of that
character. -/
theorem dropLead_of_not_mem {c : Char} {l : List Char} (h : ∀ x ∈ l, x ≠ c) :
    dropLead c l = l := by
  cases l with
  | nil => rfl
  | cons x xs =>
    unfold dropLead
    dsimp only
    rw [if_neg (h x (List.mem_cons_self x xs))]

/-- A nonempty string built from serializer output is nonempty as a
string. -/
theorem mk_isEmpty_false {l : List Char} (h : l ≠ []) :
    (String.mk l).isEmpty = false := by
  cases l with
  | nil => exact absurd rfl h
  | cons a t =>
    have hne : ¬(String.mk (a :: t)).isEmpty = true := by
      rw [String.isEmpty_iff]
      intro he
      exact absurd (congrArg String.data he) (by simp)
    simpa using hne

/-- Cleaning the re-serialized fragment of a previous cleaning is the
identity: the serialized pairs decode back to themselves, and none of them
satisfies the removal condition any more. -/
theorem cleanFragment_reser (opts : StripOpts) (q : List (String × String)) :
    cleanFragment opts
      (if (serializeFormChars (q.filter fun kv => !shouldRemove opts kv.1)).isEmpty then none
       else some ⟨serializeFormChars (q.filter fun kv => !shouldRemove opts kv.1)⟩) =
    ((if (serializeFormChars (q.filter fun kv => !shouldRemove opts kv.1)).isEmpty then none
      else some ⟨serializeFormChars (q.filter fun kv => !shouldRemove opts kv.1)⟩), false) := by
  by_cases he : (serializeFormChars (q.filter fun kv => !shouldRemove opts kv.1)).isEmpty = true
  · rw [if_pos he]
    rfl
  · rw [if_neg he]
    have hlfne : (q.filter fun kv => !shouldRemove opts kv.1) ≠ [] := by
      intro h0
      rw [h0] at he
      exact he rfl
    have hnhne : serializeFormChars (q.filter fun kv => !shouldRemove opts kv.1) ≠ [] :=
      serializeFormChars_ne_nil hlfne
    have hq : ∀ x ∈ serializeFormChars (q.filter fun kv => !shouldRemove opts kv.1),
        x ≠ '?' := by
      intro x hx
      exact ne_char_of_toNat (show ('?').toNat = 63 from rfl)
        (serializeFormChars_good _ x hx).2.2
    have hcond : (!(String.mk (serializeFormChars
          (q.filter fun kv => !shouldRemove opts kv.1))).isEmpty &&
        containsChar (String.mk (serializeFormChars
          (q.filter fun kv => !shouldRemove opts kv.1))) '=') = true := by
      rw [mk_isEmpty_false hnhne]
      have hmem : '=' ∈ serializeFormChars (q.filter fun kv => !shouldRemove opts kv.1) :=
        eq_mem_serializeForm hlfne
      have : containsChar (String.mk (serializeFormChars
          (q.filter fun kv => !shouldRemove opts kv.1))) '=' = true := by
        simpa [containsChar] using hmem
      rw [this]
      rfl
    simp only [cleanFragment]
    rw [if_pos hcond]
    rw [dropLead_of_not_mem hq, dropLead_of_not_mem hq, parseForm_serializeForm,
      removeLoop_snapshot]
    rw [filter_key_any]
    dsimp only
    rw [Bool.or_false]
    rfl

/-- Re-cleaning a cleaned fragment changes nothing and reports no
change. -/
theorem cleanFragment_stable (opts : StripOpts) (fr : Option String) :
    cleanFragment opts ((cleanFragment opts fr).1) = ((cleanFragment opts fr).1, false) := by
  cases fr with
  | none => rfl
  | some f =>
    by_cases hc : (!f.isEmpty && containsChar f '=') = true
    · have hsnap := removeLoop_snapshot (shouldRemove opts)
        (parseForm (dropLead '?' (dropLead '?' f.data))) false
      by_cases h2 : ((parseForm (dropLead '?' (dropLead '?' f.data))).any
          fun kv => shouldRemove opts kv.1) = true
      · have h1 : cleanFragment opts (some f) =
            (if (serializeFormChars ((parseForm (dropLead '?' (dropLead '?' f.data))).filter
                  fun kv => !shouldRemove opts kv.1)).isEmpty then none
             else some ⟨serializeFormChars ((parseForm (dropLead '?' (dropLead '?' f.data))).filter
                  fun kv => !shouldRemove opts kv.1)⟩, true) := by
          simp only [cleanFragment]
          rw [if_pos hc]
          rw [hsnap]
          rw [Bool.false_or, if_pos h2]
        rw [h1]
        dsimp only
        exact cleanFragment_reser opts (parseForm (dropLead '?' (dropLead '?' f.data)))
      · have h1 : cleanFragment opts (some f) = (some f, false) := by
          simp only [cleanFragment]
          rw [if_pos hc]
          rw [hsnap]
          rw [Bool.false_or, if_neg h2]
        rw [h1]
        exact h1
    · have h1 : cleanFragment opts (some f) = (some f, false) := by
        simp only [cleanFragment]
        rw [if_neg hc]
      rw [h1]
      exact h1

/-- Running the heuristic cleaner on the serialization of an already-cleaned
URL value (no redirector matches it, its query is already filtered, its
fragment already cleaned and not subject to the trailing strips) returns
that serialization unchanged with no flags. -/
theorem strip_output_stable (u : URLValue) (opts : StripOpts) (hwfu : WfURL u)
    (h1 : ((jsEndsWith u.host "google.com" || jsEndsWith u.host "google.com.au") &&
        decide (u.path = "/url")) = false ∨
      firstTruthy (getParam u "url") (getParam u "q") = none)
    (h2 : ((decide (u.host = "l.facebook.com") || decide (u.path = "/l.php")) &&
        truthyS (getParam u "u")) = false)
    (h3 : (jsEndsWith u.host "instagram.com" && truthyS (getParam u "u")) = false)
    (hfs : fragNormF (cleanFragment opts u.fragment).1 = (cleanFragment opts u.fragment).1) :
    stripTracking (outString { u with
        query := u.query.filter fun kv => !shouldRemove opts kv.1,
        fragment := (cleanFragment opts u.fragment).1 }) opts =
      { url := outString { u with
          query := u.query.filter fun kv => !shouldRemove opts kv.1,
          fragment := (cleanFragment opts u.fragment).1 },
        changed := false, unwrappedFrom := none, error := none } := by
  have hwf2 : WfURL { u with
      query := u.query.filter fun kv => !shouldRemove opts kv.1,
      fragment := (cleanFragment opts u.fragment).1 } :=
    wf_update hwfu _ _ (cleanFragment_clean hwfu.frag_good)
  have hfn : fragNorm { u with
      query := u.query.filter fun kv => !shouldRemove opts kv.1,
      fragment := (cleanFragment opts u.fragment).1 } =
      { u with
        query := u.query.filter fun kv => !shouldRemove opts kv.1,
        fragment := (cleanFragment opts u.fragment).1 } := by
    unfold fragNorm
    rw [show ({ u with
        query := u.query.filter fun kv => !shouldRemove opts kv.1,
        fragment := (cleanFragment opts u.fragment).1 } : URLValue).fragment =
      (cleanFragment opts u.fragment).1 from rfl, hfs]
  have hpp : parseURL (outString { u with
      query := u.query.filter fun kv => !shouldRemove opts kv.1,
      fragment := (cleanFragment opts u.fragment).1 }) =
      some { u with
        query := u.query.filter fun kv => !shouldRemove opts kv.1,
        fragment := (cleanFragment opts u.fragment).1 } := by
    have h0 := parse_outString hwf2
    rw [hfn] at h0
    exact h0
  have hgp : ∀ k, getParam { u with
      query := u.query.filter fun kv => !shouldRemove opts kv.1,
      fragment := (cleanFragment opts u.fragment).1 } k = none ∨
      getParam { u with
        query := u.query.filter fun kv => !shouldRemove opts kv.1,
        fragment := (cleanFragment opts u.fragment).1 } k = getParam u k :=
    fun k => getParam_filter_cases u (shouldRemove opts) k
  have h1' : ((jsEndsWith ({ u with
        query := u.query.filter fun kv => !shouldRemove opts kv.1,
        fragment := (cleanFragment opts u.fragment).1 } : URLValue).host "google.com" ||
      jsEndsWith ({ u with
        query := u.query.filter fun kv => !shouldRemove opts kv.1,
        fragment := (cleanFragment opts u.fragment).1 } : URLValue).host "google.com.au") &&
      decide (({ u with
        query := u.query.filter fun kv => !shouldRemove opts kv.1,
        fragment := (cleanFragment opts u.fragment).1 } : URLValue).path = "/url")) = false ∨
      firstTruthy (getParam { u with
          query := u.query.filter fun kv => !shouldRemove opts kv.1,
          fragment := (cleanFragment opts u.fragment).1 } "url")
        (getParam { u with
          query := u.query.filter fun kv => !shouldRemove opts kv.1,
          fragment := (cleanFragment opts u.fragment).1 } "q") = none := by
    rcases h1 with hl | hr
    · exact Or.inl hl
    · right
      obtain ⟨ta, tb⟩ := firstTruthy_eq_none hr
      have ta2 := truthyS_mono (hgp "url") ta
      have tb2 := truthyS_mono (hgp "q") tb
      unfold firstTruthy
      rw [if_neg (by simp [ta2]), if_neg (by simp [tb2])]
  have h2' : ((decide (({ u with
        query := u.query.filter fun kv => !shouldRemove opts kv.1,
        fragment := (cleanFragment opts u.fragment).1 } : URLValue).host = "l.facebook.com") ||
      decide (({ u with
        query := u.query.filter fun kv => !shouldRemove opts kv.1,
        fragment := (cleanFragment opts u.fragment).1 } : URLValue).path = "/l.php")) &&
      truthyS (getParam { u with
        query := u.query.filter fun kv => !shouldRemove opts kv.1,
        fragment := (cleanFragment opts u.fragment).1 } "u")) = false := by
    by_cases hb : (decide (u.host = "l.facebook.com") || decide (u.path = "/l.php")) = true
    · have ht : truthyS (getParam u "u") = false := by
        rw [hb, Bool.true_and] at h2
        exact h2
      have ht2 := truthyS_mono (hgp "u") ht
      show ((decide (u.host = "l.facebook.com") || decide (u.path = "/l.php")) &&
        truthyS (getParam { u with
          query := u.query.filter fun kv => !shouldRemove opts kv.1,
          fragment := (cleanFragment opts u.fragment).1 } "u")) = false
      rw [ht2, Bool.and_false]
    · have hb' : (decide (u.host = "l.facebook.com") || decide (u.path = "/l.php")) = false := by
        simpa using hb
      show ((decide (u.host = "l.facebook.com") || decide (u.path = "/l.php")) &&
        truthyS (getParam { u with
          query := u.query.filter fun kv => !shouldRemove opts kv.1,
          fragment := (cleanFragment opts u.fragment).1 } "u")) = false
      rw [hb', Bool.false_and]
  have h3' : (jsEndsWith ({ u with
        query := u.query.filter fun kv => !shouldRemove opts kv.1,
        fragment := (cleanFragment opts u.fragment).1 } : URLValue).host "instagram.com" &&
      truthyS (getParam { u with
        query := u.query.filter fun kv => !shouldRemove opts kv.1,
        fragment := (cleanFragment opts u.fragment).1 } "u")) = false := by
    by_cases hb : jsEndsWith u.host "instagram.com" = true
    · have ht : truthyS (getParam u "u") = false := by
        rw [hb, Bool.true_and] at h3
        exact h3
      have ht2 := truthyS_mono (hgp "u") ht
      show (jsEndsWith u.host "instagram.com" &&
        truthyS (getParam { u with
          query := u.query.filter fun kv => !shouldRemove opts kv.1,
          fragment := (cleanFragment opts u.fragment).1 } "u")) = false
      rw [ht2, Bool.and_false]
    · have hb' : jsEndsWith u.host "instagram.com" = false := by
        simpa using hb
      show (jsEndsWith u.host "instagram.com" &&
        truthyS (getParam { u with
          query := u.query.filter fun kv => !shouldRemove opts kv.1,
          fragment := (cleanFragment opts u.fragment).1 } "u")) = false
      rw [hb', Bool.false_and]
  have huw2 := unwrap_eq_self hpp h1' h2' h3'
  have htrim : jsTrim (outString { u with
      query := u.query.filter fun kv => !shouldRemove opts kv.1,
      fragment := (cleanFragment opts u.fragment).1 }) =
      outString { u with
        query := u.query.filter fun kv => !shouldRemove opts kv.1,
        fragment := (cleanFragment opts u.fragment).1 } :=
    jsTrim_eq_self_of_clean (outStringChars_clean hwf2)
  simp only [stripTracking]
  rw [htrim, huw2]
  dsimp only
  rw [hpp]
  dsimp only
  rw [removeLoop_snapshot, filter_key_idem, filter_key_any, cleanFragment_stable]
  rfl

/-- Claim C3, counterexample: neither cleaner is idempotent.  Heuristic:
on `https://example.com/a#x=1&ref?` with `extraBadParams := ["ref"]` the
first clean reports `changed = false` yet its output re-cleans to a
different URL (the trailing `?` of the untouched fragment is eaten by the
output normalization, so the re-parsed fragment key becomes the removable
`ref`).  Engine: with the chained providers of `rxC1`/`psC1`, applying the
engine to its own output changes the URL again. -/
theorem idempotence_cx :
    stripTracking "https://example.com/a#x=1&ref?" { extraBadParams := ["ref"] } =
      { url := "https://example.com/a#x=1&ref", changed := false,
        unwrappedFrom := none, error := none } ∧
    stripTracking "https://example.com/a#x=1&ref" { extraBadParams := ["ref"] } =
      { url := "https://example.com/a#x=1", changed := true,
        unwrappedFrom := none, error := none } ∧
    applyClearUrls rxC1 rxC1 "https://a.example/" (some ⟨some psC1⟩) true =
      { url := "https://b.example/", changed := true, error := none } ∧
    applyClearUrls rxC1 rxC1
        (applyClearUrls rxC1 rxC1 "https://a.example/" (some ⟨some psC1⟩) true).url
        (some ⟨some psC1⟩) true =
      { url := "https://c.example/", changed := true, error := none } :=
  ⟨by decide, by decide, rfl, rfl⟩

/-- Claim C3, amended: the heuristic cleaner is idempotent on every run in
which no redirector unwrap fired and the cleaned fragment is not subject to
the output normalization's trailing `?`/`#` strips: re-cleaning the output
returns it verbatim with `changed = false`, no unwrap and no error. -/
theorem strip_idempotent_no_unwrap (s : String) (opts : StripOpts) (u : URLValue)
    (hp : parseURL (jsTrim s) = some u)
    (hunw : (stripTracking s opts).unwrappedFrom = none)
    (he : (stripTracking s opts).error = none)
    (hfs : fragNormF (cleanFragment opts u.fragment).1 = (cleanFragment opts u.fragment).1) :
    stripTracking (stripTracking s opts).url opts =
      { url := (stripTracking s opts).url, changed := false,
        unwrappedFrom := none, error := none } := by
  simp only [stripTracking] at hunw he
  cases hp2 : parseURL (unwrapKnownRedirectors (jsTrim s)).1 with
  | none =>
    rw [hp2] at he
    exact absurd he (by simp)
  | some u' =>
    rw [hp2] at hunw
    dsimp only at hunw
    have hinv := unwrap_none_inv hp hunw
    have hpu : parseURL (unwrapKnownRedirectors (jsTrim s)).1 = some u := by
      rw [hinv.1]
      exact hp
    have hurl : (stripTracking s opts).url = outString { u with
        query := u.query.filter fun kv => !shouldRemove opts kv.1,
        fragment := (cleanFragment opts u.fragment).1 } := by
      simp only [stripTracking]
      rw [hpu]
      dsimp only
      rw [hunw, Option.isSome_none, removeLoop_snapshot]
    rw [hurl]
    exact strip_output_stable u opts (wf_of_parseChars hp) hinv.2.1 hinv.2.2.1
      hinv.2.2.2 hfs

/-- Witness for heuristic idempotence without unwrap, at a URL whose
`utm_a` parameter is removed. -/
theorem strip_idempotent_no_unwrap_witness :
    stripTracking (stripTracking "https://example.com/?utm_a=1&b=2" {}).url {} =
      { url := (stripTracking "https://example.com/?utm_a=1&b=2" {}).url,
        changed := false, unwrappedFrom := none, error := none } :=
  strip_idempotent_no_unwrap "https://example.com/?utm_a=1&b=2" {}
    { scheme := "https", host := "example.com", port := none, path := "/",
      query := [("utm_a", "1"), ("b", "2")], fragment := none }
    (by decide) (by decide) (by decide) (by decide)
